import Mathlib

/-!
Verification of the analyzer service of the well-architected-iac-analyzer
repository.  The definitions below are shallow embeddings of the TypeScript
functions of `AnalyzerService`; strings are modelled as `List Char` internally
with `String` wrappers, JavaScript regular-expression replacements are modelled
by explicit recursive functions implementing the same global leftmost-match
semantics, and the stateful orchestration loops are modelled by explicit state
passing with an oracle list describing the outcome of each external call.
-/

namespace Analyzer

/-- The JavaScript whitespace class `\s` (WhiteSpace plus LineTerminator):
TAB, LF, VT, FF, CR, SP, NBSP, and the Unicode space separators used by
ECMAScript. -/
def jsIsSpace (c : Char) : Bool :=
  c.toNat = 9 || c.toNat = 10 || c.toNat = 11 || c.toNat = 12 || c.toNat = 13 ||
  c.toNat = 32 || c.toNat = 160 || c.toNat = 0x1680 ||
  (0x2000 ≤ c.toNat && c.toNat ≤ 0x200a) ||
  c.toNat = 0x2028 || c.toNat = 0x2029 || c.toNat = 0x202f || c.toNat = 0x205f ||
  c.toNat = 0x3000 || c.toNat = 0xfeff

/-- Lower-case ASCII letter or digit, the character class `[a-z0-9]`
(code points 97–122 and 48–57). -/
def isLowerAlnum (c : Char) : Bool :=
  (97 ≤ c.toNat && c.toNat ≤ 122) || (48 ≤ c.toNat && c.toNat ≤ 57)

/-- Model of a global replacement `str.replace(/P+/g, rep)` for a character
class `P`: every maximal run of characters satisfying `p` is replaced by the
single character `rep`.  The boolean flag records whether the previous input
character was part of a run (so the run's replacement has already been
emitted). -/
def collapseRunsAux (p : Char → Bool) (rep : Char) : Bool → List Char → List Char
  | _, [] => []
  | inRun, c :: t =>
    if p c then
      if inRun then collapseRunsAux p rep true t
      else rep :: collapseRunsAux p rep true t
    else c :: collapseRunsAux p rep false t

/-- `str.replace(/P+/g, rep)` for a character class `P`. -/
def collapseRuns (p : Char → Bool) (rep : Char) (s : List Char) : List Char :=
  collapseRunsAux p rep false s

/-- The `^-` half of `.replace(/^-|-$/g, '')`: remove one leading hyphen. -/
def stripLeadHyphen : List Char → List Char
  | '-' :: t => t
  | s => s

/-- The `-$` half of `.replace(/^-|-$/g, '')`: remove one trailing hyphen. -/
def stripTrailHyphen (s : List Char) : List Char :=
  if s.getLast? = some '-' then s.dropLast else s

/-- Model of `.replace(/^-|-$/g, '')`: the global alternation removes one
leading hyphen (anchored `^-`) and one trailing hyphen (anchored `-$`). -/
def stripEdgeHyphens (s : List Char) : List Char :=
  stripTrailHyphen (stripLeadHyphen s)

/-- `generateFallbackBestPracticeId(name)`:
`name.toLowerCase().replace(/[^a-z0-9]+/g, '-').replace(/^-|-$/g, '')`. -/
def generateFallbackBestPracticeId (name : String) : String :=
  ⟨stripEdgeHyphens (collapseRuns (fun c => !isLowerAlnum c) '-' (name.data.map Char.toLower))⟩

/-! Structural facts about `collapseRuns`. -/

theorem collapseRunsAux_mem (p : Char → Bool) (rep : Char) :
    ∀ (b : Bool) (l : List Char), ∀ c ∈ collapseRunsAux p rep b l, c = rep ∨ p c = false := by
  intro b l
  induction l generalizing b with
  | nil => intro c hc; simp [collapseRunsAux] at hc
  | cons d t ih =>
    intro c hc
    by_cases hd : p d
    · cases b with
      | true =>
        simp only [collapseRunsAux, hd, if_true] at hc
        exact ih true c hc
      | false =>
        simp only [collapseRunsAux, hd, if_true, Bool.false_eq_true, if_false,
          List.mem_cons] at hc
        rcases hc with h | h
        · exact Or.inl h
        · exact ih true c h
    · simp only [collapseRunsAux, hd, Bool.false_eq_true, if_false,
        List.mem_cons] at hc
      rcases hc with h | h
      · subst h; exact Or.inr (by simpa using hd)
      · exact ih false c h

/-- The head of `collapseRunsAux p rep true l` never satisfies `p` unless it is
a fresh run replacement — in fact in run-continuation mode the next emitted
character always fails `p`. -/
theorem collapseRunsAux_true_head (p : Char → Bool) (rep : Char) :
    ∀ l : List Char, ∀ c, (collapseRunsAux p rep true l).head? = some c → p c = false := by
  intro l
  induction l with
  | nil => intro c hc; simp [collapseRunsAux] at hc
  | cons d t ih =>
    intro c hc
    by_cases hd : p d
    · simp only [collapseRunsAux, hd, if_pos, if_true] at hc
      exact ih c hc
    · simp only [collapseRunsAux, hd, Bool.false_eq_true, if_false, List.head?_cons,
        Option.some.injEq] at hc
      subst hc; simpa using hd

/-- No two adjacent characters of the output both satisfy `p`. -/
theorem collapseRunsAux_chain (p : Char → Bool) (rep : Char) :
    ∀ (b : Bool) (l : List Char),
      List.Chain' (fun a c => ¬(p a = true ∧ p c = true)) (collapseRunsAux p rep b l) := by
  intro b l
  induction l generalizing b with
  | nil => simp [collapseRunsAux]
  | cons d t ih =>
    by_cases hd : p d
    · cases b with
      | true => simpa [collapseRunsAux, hd] using ih true
      | false =>
        simp only [collapseRunsAux, hd, if_pos, if_true]
        refine List.chain'_cons'.mpr ⟨?_, ih true⟩
        intro y hy
        intro hcon
        have := collapseRunsAux_true_head p rep t y hy
        rw [this] at hcon
        exact absurd hcon.2 (by simp)
    · simp only [collapseRunsAux, hd, Bool.false_eq_true, if_false]
      refine List.chain'_cons'.mpr ⟨?_, ih false⟩
      intro y hy hcon
      exact absurd hcon.1 (by simp [hd])

/-- `collapseRuns` is the identity on lists in which every `p`-character is
`rep` and no two adjacent characters satisfy `p` (and, in run-continuation
mode, whose head does not satisfy `p`). -/
theorem collapseRunsAux_id (p : Char → Bool) (rep : Char) :
    ∀ l : List Char,
      (∀ c ∈ l, p c = true → c = rep) →
      List.Chain' (fun a c => ¬(p a = true ∧ p c = true)) l →
      (collapseRunsAux p rep false l = l ∧
        ((∀ c, l.head? = some c → p c = false) → collapseRunsAux p rep true l = l)) := by
  intro l
  induction l with
  | nil => intro _ _; exact ⟨rfl, fun _ => rfl⟩
  | cons d t ih =>
    intro hmem hch
    have hch' := (List.chain'_cons'.mp hch).2
    have hnd := (List.chain'_cons'.mp hch).1
    have ihspec := ih (fun c hc h => hmem c (List.mem_cons_of_mem d hc) h) hch'
    by_cases hd : p d
    · have hdr : d = rep := hmem d (List.mem_cons_self d t) hd
      constructor
      · have ht : ∀ c, t.head? = some c → p c = false := by
          intro c hc
          by_contra hpc
          exact hnd c hc ⟨hd, by simpa using hpc⟩
        simp only [collapseRunsAux, hd, if_true, Bool.false_eq_true, if_false]
        rw [ihspec.2 ht, hdr]
      · intro hh
        have := hh d (by simp)
        rw [this] at hd; cases hd
    · constructor
      · simp only [collapseRunsAux, hd, Bool.false_eq_true, if_false]
        rw [ihspec.1]
      · intro _
        simp only [collapseRunsAux, hd, Bool.false_eq_true, if_false]
        rw [ihspec.1]

/-! Facts about `stripEdgeHyphens` and idempotence of the fallback id. -/

theorem toLower_eq_self (c : Char) (h : isLowerAlnum c = true ∨ c = '-') :
    Char.toLower c = c := by
  have hn : ¬(c.toNat ≥ 65 ∧ c.toNat ≤ 90) := by
    rcases h with h | h
    · simp only [isLowerAlnum, Bool.or_eq_true, Bool.and_eq_true, decide_eq_true_eq] at h
      omega
    · subst h; decide
  simp only [Char.toLower]
  rw [if_neg hn]

theorem head?_dropLast (l : List Char) (c : Char) (h : l.dropLast.head? = some c) :
    l.head? = some c := by
  match l with
  | [] => simp [List.dropLast] at h
  | [a] => simp [List.dropLast] at h
  | a :: b :: t => simpa [List.dropLast] using h

theorem stripLeadHyphen_sublist (s : List Char) : List.Sublist (stripLeadHyphen s) s := by
  unfold stripLeadHyphen
  split
  · exact (List.sublist_cons_self _ _)
  · exact List.Sublist.refl s

theorem stripTrailHyphen_sublist (s : List Char) : List.Sublist (stripTrailHyphen s) s := by
  unfold stripTrailHyphen
  split
  · exact List.dropLast_sublist s
  · exact List.Sublist.refl s

theorem stripEdgeHyphens_sublist (s : List Char) : List.Sublist (stripEdgeHyphens s) s :=
  (stripTrailHyphen_sublist _).trans (stripLeadHyphen_sublist s)

theorem stripEdgeHyphens_chain (R : Char → Char → Prop) (s : List Char)
    (h : List.Chain' R s) : List.Chain' R (stripEdgeHyphens s) := by
  unfold stripEdgeHyphens stripTrailHyphen
  have h1 : List.Chain' R (stripLeadHyphen s) := by
    unfold stripLeadHyphen
    split
    · exact h.tail
    · exact h
  split
  · rw [List.dropLast_eq_take]
    exact h1.take _
  · exact h1

/-- In a list with no two adjacent hyphens, dropping a trailing hyphen leaves
no trailing hyphen. -/
theorem dropLast_no_trailing_hyphen (l : List Char)
    (hc : List.Chain' (fun a c => ¬((!isLowerAlnum a) = true ∧ (!isLowerAlnum c) = true)) l)
    (hl : l.getLast? = some '-') : l.dropLast.getLast? ≠ some '-' := by
  intro hcon
  have hrev := List.chain'_reverse.mpr hc
  rw [List.getLast?_eq_head?_reverse] at hl
  rw [List.getLast?_eq_head?_reverse, ← List.tail_reverse] at hcon
  obtain ⟨t, hrl⟩ := List.head?_eq_some_iff.mp hl
  rw [hrl] at hrev hcon
  simp only [List.tail_cons] at hcon
  exact (List.chain'_cons'.mp hrev).1 '-' hcon (by simp [isLowerAlnum])

theorem stripTrailHyphen_no_trailing (s : List Char)
    (hc : List.Chain' (fun a c => ¬((!isLowerAlnum a) = true ∧ (!isLowerAlnum c) = true)) s) :
    (stripTrailHyphen s).getLast? ≠ some '-' := by
  unfold stripTrailHyphen
  split
  next hl => exact dropLast_no_trailing_hyphen s hc hl
  next hl => exact hl

theorem stripLeadHyphen_no_leading (s : List Char)
    (hc : List.Chain' (fun a c => ¬((!isLowerAlnum a) = true ∧ (!isLowerAlnum c) = true)) s)
    (hmem : ∀ c ∈ s, isLowerAlnum c = true ∨ c = '-') :
    (stripLeadHyphen s).head? ≠ some '-' := by
  unfold stripLeadHyphen
  split
  next t =>
    intro hcon
    exact (List.chain'_cons'.mp hc).1 '-' hcon (by simp [isLowerAlnum])
  next hne =>
    intro hcon
    obtain ⟨t, ht⟩ := List.head?_eq_some_iff.mp hcon
    exact hne t ht

/-- After `stripEdgeHyphens`, a list whose non-alphanumeric characters are
isolated hyphens has neither a leading nor a trailing hyphen. -/
theorem stripEdgeHyphens_edges (s : List Char)
    (hmem : ∀ c ∈ s, isLowerAlnum c = true ∨ c = '-')
    (hch : List.Chain' (fun a c => ¬((!isLowerAlnum a) = true ∧ (!isLowerAlnum c) = true)) s) :
    (stripEdgeHyphens s).head? ≠ some '-' ∧ (stripEdgeHyphens s).getLast? ≠ some '-' := by
  have h1mem : ∀ c ∈ stripLeadHyphen s, isLowerAlnum c = true ∨ c = '-' :=
    fun c hc => hmem c ((stripLeadHyphen_sublist s).mem hc)
  have h1ch : List.Chain' (fun a c => ¬((!isLowerAlnum a) = true ∧ (!isLowerAlnum c) = true))
      (stripLeadHyphen s) := by
    unfold stripLeadHyphen
    split
    · exact hch.tail
    · exact hch
  have h1hd := stripLeadHyphen_no_leading s hch hmem
  constructor
  · unfold stripEdgeHyphens stripTrailHyphen
    split
    · intro hcon
      match hc : (stripLeadHyphen s).dropLast.head? with
      | none => rw [hc] at hcon; cases hcon
      | some c =>
        rw [hc] at hcon
        cases hcon
        exact h1hd (head?_dropLast _ _ hc)
    · exact h1hd
  · exact stripTrailHyphen_no_trailing _ h1ch

theorem map_id_of_mem (f : Char → Char) (l : List Char) (h : ∀ c ∈ l, f c = c) :
    l.map f = l := by
  induction l with
  | nil => rfl
  | cons d t ih =>
    simp only [List.map_cons, h d (List.mem_cons_self d t),
      ih (fun c hc => h c (List.mem_cons_of_mem d hc))]

theorem stripLeadHyphen_eq_self (l : List Char) (h : l.head? ≠ some '-') :
    stripLeadHyphen l = l := by
  unfold stripLeadHyphen
  split
  next t => exact absurd (List.head?_cons ..) h
  next => rfl

theorem stripTrailHyphen_eq_self (l : List Char) (h : l.getLast? ≠ some '-') :
    stripTrailHyphen l = l := by
  unfold stripTrailHyphen
  rw [if_neg h]

/-- Bundle of structural facts about the fallback id output. -/
theorem generateFallbackBestPracticeId_props (s : String) :
    (∀ c ∈ (generateFallbackBestPracticeId s).data, isLowerAlnum c = true ∨ c = '-') ∧
    List.Chain' (fun a c => ¬((!isLowerAlnum a) = true ∧ (!isLowerAlnum c) = true))
      (generateFallbackBestPracticeId s).data ∧
    (generateFallbackBestPracticeId s).data.head? ≠ some '-' ∧
    (generateFallbackBestPracticeId s).data.getLast? ≠ some '-' := by
  have hdata : (generateFallbackBestPracticeId s).data =
      stripEdgeHyphens (collapseRuns (fun c => !isLowerAlnum c) '-' (s.data.map Char.toLower)) :=
    rfl
  set l := s.data.map Char.toLower with hl
  have hmem0 : ∀ c ∈ collapseRuns (fun c => !isLowerAlnum c) '-' l,
      isLowerAlnum c = true ∨ c = '-' := by
    intro c hc
    rcases collapseRunsAux_mem (fun c => !isLowerAlnum c) '-' false l c hc with h | h
    · exact Or.inr h
    · exact Or.inl (by simpa using h)
  have hch0 := collapseRunsAux_chain (fun c => !isLowerAlnum c) '-' false l
  have hmem : ∀ c ∈ (generateFallbackBestPracticeId s).data,
      isLowerAlnum c = true ∨ c = '-' := by
    intro c hc
    rw [hdata] at hc
    exact hmem0 c ((stripEdgeHyphens_sublist _).mem hc)
  have hch : List.Chain' (fun a c => ¬((!isLowerAlnum a) = true ∧ (!isLowerAlnum c) = true))
      (generateFallbackBestPracticeId s).data := by
    rw [hdata]; exact stripEdgeHyphens_chain _ _ hch0
  have hedges := stripEdgeHyphens_edges (collapseRuns (fun c => !isLowerAlnum c) '-' l)
    hmem0 hch0
  exact ⟨hmem, hch, by rw [hdata]; exact hedges.1, by rw [hdata]; exact hedges.2⟩

/-- The fallback id generator is idempotent. -/
theorem generateFallbackBestPracticeId_idem (s : String) :
    generateFallbackBestPracticeId (generateFallbackBestPracticeId s) =
      generateFallbackBestPracticeId s := by
  obtain ⟨hmem, hch, hhd, hlast⟩ := generateFallbackBestPracticeId_props s
  set r := (generateFallbackBestPracticeId s).data with hr
  have hmap : r.map Char.toLower = r :=
    map_id_of_mem _ _ (fun c hc => toLower_eq_self c (hmem c hc))
  have hcollapse : collapseRuns (fun c => !isLowerAlnum c) '-' r = r := by
    refine (collapseRunsAux_id (fun c => !isLowerAlnum c) '-' r ?_ hch).1
    intro c hc hpc
    rcases hmem c hc with h | h
    · simp only [h] at hpc; cases hpc
    · exact h
  have hstrip : stripEdgeHyphens r = r := by
    unfold stripEdgeHyphens
    rw [stripLeadHyphen_eq_self r hhd, stripTrailHyphen_eq_self r hlast]
  have hkey : stripEdgeHyphens (collapseRuns (fun c => !isLowerAlnum c) '-'
      (r.map Char.toLower)) = r := by
    rw [hmap, hcollapse, hstrip]
  show String.mk (stripEdgeHyphens (collapseRuns (fun c => !isLowerAlnum c) '-'
      ((generateFallbackBestPracticeId s).data.map Char.toLower))) =
    generateFallbackBestPracticeId s
  rw [← hr, hkey]

/-- C6: Fallback id generation (`generateFallbackBestPracticeId`) is
deterministic and idempotent: applying it twice equals applying it once; the
output consists only of lower-case alphanumerics and hyphens, with no two
adjacent hyphens (each maximal non-alphanumeric run collapsed to one hyphen)
and no leading or trailing hyphen; and it maps `"Foo Bar!"` to `"foo-bar"`. -/
theorem C6_generateFallbackBestPracticeId_spec :
    (∀ s : String, generateFallbackBestPracticeId (generateFallbackBestPracticeId s) =
      generateFallbackBestPracticeId s) ∧
    generateFallbackBestPracticeId ("Foo Bar!") = "foo-bar" ∧
    (∀ s : String,
      (∀ c ∈ (generateFallbackBestPracticeId s).data, isLowerAlnum c = true ∨ c = '-') ∧
      List.Chain' (fun a c => ¬(a = '-' ∧ c = '-')) (generateFallbackBestPracticeId s).data ∧
      (generateFallbackBestPracticeId s).data.head? ≠ some '-' ∧
      (generateFallbackBestPracticeId s).data.getLast? ≠ some '-') := by
  refine ⟨generateFallbackBestPracticeId_idem, by decide, ?_⟩
  intro s
  obtain ⟨hmem, hch, hhd, hlast⟩ := generateFallbackBestPracticeId_props s
  refine ⟨hmem, ?_, hhd, hlast⟩
  refine hch.imp ?_
  intro a c h hac
  exact h (by simp [hac.1, hac.2, isLowerAlnum])

/-- Witness for C6 at the concrete input `"Foo Bar!"`. -/
theorem C6_witness : isLowerAlnum 'f' = true ∨ 'f' = '-' :=
  (C6_generateFallbackBestPracticeId_spec.2.2 ("Foo Bar!")).1 'f' (by decide)

/-! `parseModelResponse` (C3). -/

/-- `QuestionGroup` of the analyzer: a Well-Architected question with its
positionally aligned best-practice names and ids. -/
structure QuestionGroup where
  pillar : String
  title : String
  questionId : String
  bestPractices : List String
  bestPracticeIds : List String
  deriving Repr, DecidableEq

/-- One entry of the model's JSON verdict array. -/
structure BestPractice where
  name : String
  applied : Bool
  reasonApplied : String
  reasonNotApplied : String
  recommendations : String
  deriving Repr, DecidableEq

/-- The parsed JSON envelope returned by the model. -/
structure ModelResponse where
  bestPractices : List BestPractice
  deriving Repr, DecidableEq

/-- One record of `parseModelResponse`'s output.  The `id` field is
`questionGroup.bestPracticeIds[index]`; indexing a JavaScript array out of
range yields `undefined`, modelled by `none`. -/
structure AnalyzedBestPractice where
  id : Option String
  name : String
  applied : Bool
  reasonApplied : String
  reasonNotApplied : String
  recommendations : String
  deriving Repr, DecidableEq

/-- The indexed map inside `parseModelResponse`:
`response.bestPractices.map((bp, index) => ({ id: questionGroup.bestPracticeIds[index], ... }))`. -/
def parseModelResponseAux (ids : List String) (index : Nat) :
    List BestPractice → List AnalyzedBestPractice
  | [] => []
  | bp :: t =>
    { id := ids.get? index, name := bp.name, applied := bp.applied,
      reasonApplied := bp.reasonApplied, reasonNotApplied := bp.reasonNotApplied,
      recommendations := bp.recommendations } :: parseModelResponseAux ids (index + 1) t

/-- `parseModelResponse(response, questionGroup)`: maps every verdict of the
response, in order, to a record whose id is taken positionally from
`questionGroup.bestPracticeIds`. -/
def parseModelResponse (response : ModelResponse) (questionGroup : QuestionGroup) :
    List AnalyzedBestPractice :=
  parseModelResponseAux questionGroup.bestPracticeIds 0 response.bestPractices

theorem parseModelResponseAux_get? (ids : List String) :
    ∀ (l : List BestPractice) (k i : Nat),
      (parseModelResponseAux ids k l).get? i = (l.get? i).map (fun bp =>
        { id := ids.get? (k + i), name := bp.name, applied := bp.applied,
          reasonApplied := bp.reasonApplied, reasonNotApplied := bp.reasonNotApplied,
          recommendations := bp.recommendations }) := by
  intro l
  induction l with
  | nil => intro k i; simp [parseModelResponseAux]
  | cons bp t ih =>
    intro k i
    cases i with
    | zero => simp [parseModelResponseAux]
    | succ j =>
      simp only [parseModelResponseAux, List.get?_cons_succ, ih (k + 1) j]
      have : k + 1 + j = k + (j + 1) := by omega
      rw [this]

theorem parseModelResponseAux_length (ids : List String) :
    ∀ (l : List BestPractice) (k : Nat), (parseModelResponseAux ids k l).length = l.length := by
  intro l
  induction l with
  | nil => intro k; rfl
  | cons bp t ih => intro k; simp [parseModelResponseAux, ih]

/-- C3: `parseModelResponse` returns exactly one record per verdict, assigning
to the verdict at position `i` the id `questionGroup.bestPracticeIds[i]` purely
by positional index; when the verdict count differs from the id count it still
succeeds, verdicts past the end of the id list receiving a missing id
(`none`). -/
theorem C3_parseModelResponse_positional :
    ∀ (r : ModelResponse) (qg : QuestionGroup),
      (parseModelResponse r qg).length = r.bestPractices.length ∧
      (∀ i : Nat, (parseModelResponse r qg).get? i = (r.bestPractices.get? i).map (fun bp =>
        { id := qg.bestPracticeIds.get? i, name := bp.name, applied := bp.applied,
          reasonApplied := bp.reasonApplied, reasonNotApplied := bp.reasonNotApplied,
          recommendations := bp.recommendations })) ∧
      (∀ i : Nat, qg.bestPracticeIds.length ≤ i → ∀ abp ∈ (parseModelResponse r qg).get? i,
        abp.id = none) := by
  intro r qg
  refine ⟨parseModelResponseAux_length _ _ 0, fun i => ?_, fun i hi abp habp => ?_⟩
  · rw [parseModelResponse, parseModelResponseAux_get? qg.bestPracticeIds r.bestPractices 0 i]
    simp
  · rw [parseModelResponse,
      parseModelResponseAux_get? qg.bestPracticeIds r.bestPractices 0 i] at habp
    match hbp : r.bestPractices.get? i, habp with
    | some bp, habp =>
      simp only [Option.mem_def, Option.map_some', Option.some.injEq] at habp
      subst habp
      simpa using List.get?_eq_none.mpr hi
    | none, habp => simp at habp

/-- Witness for C3: a length-mismatched response (two verdicts, one id) still
yields one record per verdict, the second with a missing id. -/
theorem C3_witness :
    (parseModelResponse
        ⟨[⟨"bp1", true, "", "", ""⟩, ⟨"bp2", false, "", "", ""⟩]⟩
        ⟨"Security", "SEC 1", "q1", ["bp1"], ["id1"]⟩).length = 2 ∧
    ∀ abp ∈ (parseModelResponse
        ⟨[⟨"bp1", true, "", "", ""⟩, ⟨"bp2", false, "", "", ""⟩]⟩
        ⟨"Security", "SEC 1", "q1", ["bp1"], ["id1"]⟩).get? 1, abp.id = none := by
  refine ⟨?_, ?_⟩
  · exact (C3_parseModelResponse_positional
      ⟨[⟨"bp1", true, "", "", ""⟩, ⟨"bp2", false, "", "", ""⟩]⟩
      ⟨"Security", "SEC 1", "q1", ["bp1"], ["id1"]⟩).1
  · exact (C3_parseModelResponse_positional
      ⟨[⟨"bp1", true, "", "", ""⟩, ⟨"bp2", false, "", "", ""⟩]⟩
      ⟨"Security", "SEC 1", "q1", ["bp1"], ["id1"]⟩).2.2 1 (by decide)

/-! `parseImplementationModelResponse` (C4): section splitting of the
IaC-generation model output. -/

/-- JavaScript line terminators, the characters `.` does not match without
the `s` flag: LF, CR, LS, PS. -/
def isLineTerm (c : Char) : Bool :=
  c = '\n' || c = '\r' || c.toNat = 0x2028 || c.toNat = 0x2029

/-- `String.prototype.trim()`: strip leading and trailing whitespace. -/
def jsTrim (s : List Char) : List Char :=
  ((s.dropWhile jsIsSpace).reverse.dropWhile jsIsSpace).reverse

/-- `String.prototype.includes(pat)`. -/
def containsSub (pat : List Char) : List Char → Bool
  | [] => pat.isEmpty
  | c :: t => List.isPrefixOf pat (c :: t) || containsSub pat t

/-- `String.prototype.replace(pat, '')` for a plain-string pattern: remove
the first occurrence of `pat`, if any. -/
def removeFirst (pat : List Char) : List Char → List Char
  | [] => []
  | c :: t =>
    if List.isPrefixOf pat (c :: t) then (c :: t).drop pat.length
    else c :: removeFirst pat t

/-- Does `#\s*Section` match as a prefix here?  (`\s*` is greedy; since `S`
is not whitespace the maximal munch is exact.)  This is the first lookahead
alternative of the section-splitting regex. -/
def headerStart (s : List Char) : Bool :=
  match s with
  | '#' :: t => List.isPrefixOf ("Section".data) (t.dropWhile jsIsSpace)
  | _ => false

/-- Match `#\s*Section\s*\d+` as a prefix, returning the consumed characters
and the remainder after the (greedy, nonempty) digit run. -/
def sectionNumSplit (s : List Char) : Option (List Char × List Char) :=
  match s with
  | '#' :: t =>
    let w1 := t.takeWhile jsIsSpace
    let t1 := t.dropWhile jsIsSpace
    if List.isPrefixOf ("Section".data) t1 then
      let t2 := t1.drop ("Section".data).length
      let w2 := t2.takeWhile jsIsSpace
      let t3 := t2.dropWhile jsIsSpace
      let ds := t3.takeWhile Char.isDigit
      if ds.isEmpty then none
      else some ('#' :: (w1 ++ "Section".data ++ w2 ++ ds), t3.drop ds.length)
    else none
  | _ => none

/-- The lazy `.*?(?=#\s*Section|\s*$)` tail of the section regex (the `s`
flag lets `.` match newlines): consume as few characters as possible until a
position where `#\s*Section` matches or only whitespace remains. -/
def lazyBody : List Char → List Char × List Char
  | [] => ([], [])
  | c :: t =>
    if headerStart (c :: t) || (c :: t).all jsIsSpace then ([], c :: t)
    else
      let (a, r) := lazyBody t
      (c :: a, r)

/-- All matches of `cleanContent.match(/#\s*Section\s*\d+.*?(?=#\s*Section|\s*$)/gs)`,
scanning left to right with non-overlapping matches.  The fuel argument makes
the recursion structural; every step consumes at least one character, so fuel
equal to the length of the string (see `sectionMatches`) never runs out. -/
def sectionMatchesAux : Nat → List Char → List (List Char)
  | 0, _ => []
  | _ + 1, [] => []
  | fuel + 1, c :: t =>
    match sectionNumSplit (c :: t) with
    | some (consumed, rest) =>
      let (body, r) := lazyBody rest
      (consumed ++ body) :: sectionMatchesAux fuel r
    | none => sectionMatchesAux fuel t

/-- `cleanContent.match(/#\s*Section\s*\d+.*?(?=#\s*Section|\s*$)/gs) || []`. -/
def sectionMatches (s : List Char) : List (List Char) :=
  sectionMatchesAux s.length s

/-- The captured digits of the anchored `^#\s*Section\s*(\d+)`, if the
pattern matches. -/
def orderDigits (s : List Char) : Option (List Char) :=
  match s with
  | '#' :: t =>
    let t1 := t.dropWhile jsIsSpace
    if List.isPrefixOf ("Section".data) t1 then
      let t2 := t1.drop ("Section".data).length
      let t3 := t2.dropWhile jsIsSpace
      let ds := t3.takeWhile Char.isDigit
      if ds.isEmpty then none else some ds
    else none
  | _ => none

/-- `parseInt` on a nonempty decimal digit string. -/
def digitsToNat (ds : List Char) : Nat :=
  ds.foldl (fun n c => n * 10 + (c.toNat - 48)) 0

/-- `(.+?)\n` at this position: the shortest nonempty capture of
non-line-terminator characters followed by a literal newline.  The only
candidate is the run up to the first line terminator, which must be `\n`. -/
def lazyLineCapture (s : List Char) : Option (List Char) :=
  let pre := s.takeWhile (fun c => !isLineTerm c)
  if pre.isEmpty then none
  else if (s.drop pre.length).head? = some '\n' then some pre else none

/-- Backtracking helper for `\s*(.+?)\n`: try dropping `j` whitespace
characters (longest first). -/
def wsLazyLineGo : Nat → List Char → Option (List Char)
  | 0, s => lazyLineCapture s
  | j + 1, s =>
    match lazyLineCapture (s.drop (j + 1)) with
    | some r => some r
    | none => wsLazyLineGo j s

/-- `\s*(.+?)\n` with a greedy backtracking `\s*`. -/
def wsThenLazyLine (s : List Char) : Option (List Char) :=
  wsLazyLineGo (s.takeWhile jsIsSpace).length s

/-- The capture of `^#\s*Section\s*\d+\s*-\s*(.+?)\n`, if the pattern
matches. -/
def descriptionCapture (s : List Char) : Option (List Char) :=
  match s with
  | '#' :: t =>
    let t1 := t.dropWhile jsIsSpace
    if List.isPrefixOf ("Section".data) t1 then
      let t2 := t1.drop ("Section".data).length
      let t3 := t2.dropWhile jsIsSpace
      let ds := t3.takeWhile Char.isDigit
      if ds.isEmpty then none
      else
        match (t3.drop ds.length).dropWhile jsIsSpace with
        | '-' :: t5 => wsThenLazyLine t5
        | _ => none
    else none
  | _ => none

/-- `section.replace(/^#\s*Section\s*\d+.*?\n/, '')`: remove the section
header line if the anchored pattern matches (without the `s` flag, `.*?`
cannot cross a line terminator, so the match runs to the first line
terminator, which must be `\n`). -/
def removeHeaderLine (s : List Char) : List Char :=
  match sectionNumSplit s with
  | some (_, rest) =>
    let pre := rest.takeWhile (fun c => !isLineTerm c)
    if (rest.drop pre.length).head? = some '\n' then rest.drop (pre.length + 1)
    else s
  | none => s

/-- `.replace(/<message_truncated>\s*$/, '')`: remove a leftmost
`<message_truncated>` marker that is followed only by whitespace up to the
end of the string. -/
def removeTruncatedMark : List Char → List Char
  | [] => []
  | c :: t =>
    if List.isPrefixOf ("<message_truncated>".data) (c :: t) &&
        ((c :: t).drop ("<message_truncated>".data).length).all jsIsSpace then []
    else c :: removeTruncatedMark t

/-- `DocumentSection` of the analyzer. -/
structure DocumentSection where
  content : String
  order : Nat
  description : String
  deriving Repr, DecidableEq

/-- `ModelSectionResponse` of the analyzer. -/
structure ModelSectionResponse where
  isComplete : Bool
  sections : List DocumentSection
  deriving Repr, DecidableEq

/-- The completion sentinel of the IaC generation loop. -/
def endSentinel : List Char := "<end_of_iac_document_generation>".data

/-- The per-match mapper inside `parseImplementationModelResponse`: order
from the header number (999 when unparsable), description from the header
text (trimmed, `'Unnamed Section'` when absent), content with the header
line and a trailing `<message_truncated>` removed, trimmed. -/
def parseSection (sec : List Char) : DocumentSection :=
  { content := ⟨jsTrim (removeTruncatedMark (removeHeaderLine sec))⟩
    order := match orderDigits sec with
      | some ds => digitsToNat ds
      | none => 999
    description := match descriptionCapture sec with
      | some d => ⟨jsTrim d⟩
      | none => "Unnamed Section" }

/-- `parseImplementationModelResponse(content)`. -/
def parseImplementationModelResponse (content : String) : ModelSectionResponse :=
  { isComplete := containsSub endSentinel content.data
    sections := (sectionMatches (jsTrim (removeFirst endSentinel content.data))).map parseSection }

/-- Two-header test input with the completion sentinel. -/
def twoSectionInput : String :=
  "# Section 1 - A\nfoo\n# Section 2 - B\nbar\n<end_of_iac_document_generation>"

/-- Two-header test input without the completion sentinel. -/
def twoSectionInputNoSentinel : String :=
  "# Section 1 - A\nfoo\n# Section 2 - B\nbar"

/-- C4: on the two-header input with the completion sentinel,
`parseImplementationModelResponse` reports `isComplete = true` and exactly
two sections with orders `1` and `2` and descriptions `A` and `B`; without
the sentinel it reports `isComplete = false`; and a section whose header has
no parsable number receives the default order `999`. -/
theorem C4_parseImplementationModelResponse_spec :
    (parseImplementationModelResponse twoSectionInput).isComplete = true ∧
    ((parseImplementationModelResponse twoSectionInput).sections.map DocumentSection.order)
      = [1, 2] ∧
    ((parseImplementationModelResponse twoSectionInput).sections.map
      DocumentSection.description) = ["A", "B"] ∧
    (parseImplementationModelResponse twoSectionInputNoSentinel).isComplete = false ∧
    (∀ sec : List Char, orderDigits sec = none → (parseSection sec).order = 999) := by
  refine ⟨by decide, by decide, by decide, by decide, ?_⟩
  intro sec h
  simp [parseSection, h]

/-- Witness for C4: a header without a parsable number gets order 999. -/
theorem C4_witness : (parseSection (("# Section - no number\nbody").data)).order = 999 :=
  C4_parseImplementationModelResponse_spec.2.2.2.2 _ (by decide)

/-! Sorting and assembling document sections (C7). -/

/-- The comparator `(a, b) => a.order - b.order`: ascending by `order`.
ECMAScript `Array.prototype.sort` is stable, modelled by a stable insertion
sort. -/
def secLE (a b : DocumentSection) : Prop := a.order ≤ b.order

instance : DecidableRel secLE := fun a b => Nat.decLe a.order b.order

/-- `allSections.sort((a, b) => a.order - b.order)`. -/
def sortSections (l : List DocumentSection) : List DocumentSection :=
  List.insertionSort secLE l

/-- `'# ' + section.description + '\n' + section.content` for one section. -/
def sectionText (sec : DocumentSection) : String :=
  "# " ++ sec.description ++ "\n" ++ sec.content

/-- `Array.prototype.join(sep)`. -/
def joinSep (sep : String) : List String → String
  | [] => ""
  | [x] => x
  | x :: y :: t => x ++ sep ++ joinSep sep (y :: t)

/-- The document assembled on normal completion of `generateIacDocument`:
`sortedSections.map(s => '# ' + s.description + '\n' + s.content).join('\n\n')`. -/
def assembleSections (l : List DocumentSection) : String :=
  joinSep ("\n\n") ((sortSections l).map sectionText)

theorem filter_orderedInsert_key (k : Nat) (x : DocumentSection)
    (l : List DocumentSection) :
    (l.orderedInsert secLE x).filter (fun s => s.order == k) =
      if x.order == k then x :: l.filter (fun s => s.order == k)
      else l.filter (fun s => s.order == k) := by
  induction l with
  | nil =>
    by_cases hx : x.order == k
    · simp [List.orderedInsert, List.filter, hx]
    · simp [List.orderedInsert, List.filter, hx]
  | cons y t ih =>
    by_cases hxy : secLE x y
    · rw [List.orderedInsert, if_pos hxy]
      by_cases hx : x.order == k
      · simp [List.filter, hx]
      · simp [List.filter, hx]
    · rw [List.orderedInsert, if_neg hxy]
      have hylt : y.order < x.order := by
        simp only [secLE, Nat.not_le] at hxy
        exact hxy
      by_cases hx : (x.order == k) = true
      · have hk : x.order = k := by simpa using hx
        have hy : (y.order == k) = false := by
          simp only [beq_eq_false_iff_ne, ne_eq]
          omega
        rw [if_pos hx]
        simp only [List.filter_cons, hy, Bool.false_eq_true, if_false, ih, if_pos hx]
      · have hx' : (x.order == k) = false := by
          simpa using hx
        rw [if_neg hx]
        simp only [List.filter_cons, ih, if_neg hx]

theorem sortSections_filter_key (k : Nat) (l : List DocumentSection) :
    (sortSections l).filter (fun s => s.order == k) = l.filter (fun s => s.order == k) := by
  induction l with
  | nil => rfl
  | cons x t ih =>
    show ((List.insertionSort secLE t).orderedInsert secLE x).filter (fun s => s.order == k)
      = (x :: t).filter (fun s => s.order == k)
    rw [filter_orderedInsert_key]
    by_cases hx : (x.order == k) = true
    · rw [if_pos hx]
      simp only [List.filter_cons, hx, if_true]
      exact congrArg (x :: ·) ih
    · rw [if_neg hx]
      have hx' : (x.order == k) = false := by simpa using hx
      simp only [List.filter_cons, hx', Bool.false_eq_true, if_false]
      exact ih

theorem sortSections_sorted (l : List DocumentSection) :
    List.Sorted secLE (sortSections l) := by
  haveI : IsTotal DocumentSection secLE := ⟨fun a b => Nat.le_total a.order b.order⟩
  haveI : IsTrans DocumentSection secLE := ⟨fun a b c h1 h2 => Nat.le_trans h1 h2⟩
  exact List.sorted_insertionSort secLE l

theorem sortSections_perm (l : List DocumentSection) :
    List.Perm (sortSections l) l :=
  List.perm_insertionSort secLE l

/-- A sorted list whose keys are pairwise distinct is strictly sorted. -/
theorem sorted_strict_of_nodup_keys (l : List DocumentSection)
    (hs : List.Sorted secLE l) (hnd : (l.map DocumentSection.order).Nodup) :
    List.Sorted (fun a b : DocumentSection => a.order < b.order) l := by
  have h2 : l.Pairwise (fun a b => a.order ≠ b.order) := by
    rw [List.Nodup, List.pairwise_map] at hnd
    exact hnd
  exact (hs.and h2).imp (fun h => Nat.lt_of_le_of_ne h.1 h.2)

/-- With pairwise distinct order keys the sorted output does not depend on
the arrival sequence. -/
theorem sortSections_eq_of_perm (l₁ l₂ : List DocumentSection)
    (hp : List.Perm l₁ l₂) (hnd : (l₁.map DocumentSection.order).Nodup) :
    sortSections l₁ = sortSections l₂ := by
  have hperm : List.Perm (sortSections l₁) (sortSections l₂) :=
    (sortSections_perm l₁).trans (hp.trans (sortSections_perm l₂).symm)
  have hnd₁ : ((sortSections l₁).map DocumentSection.order).Nodup :=
    (((sortSections_perm l₁).map DocumentSection.order).nodup_iff).mpr hnd
  have hnd₂ : ((sortSections l₂).map DocumentSection.order).Nodup :=
    ((hperm.map DocumentSection.order).nodup_iff).mp hnd₁
  haveI : IsAntisymm DocumentSection (fun a b : DocumentSection => a.order < b.order) :=
    ⟨fun a b h1 h2 => ((Nat.lt_asymm h1) h2).elim⟩
  exact List.eq_of_perm_of_sorted hperm
    (sorted_strict_of_nodup_keys _ (sortSections_sorted l₁) hnd₁)
    (sorted_strict_of_nodup_keys _ (sortSections_sorted l₂) hnd₂)

/-- C7: the document assembled on normal completion of `generateIacDocument`
is the concatenation of the sections sorted by ascending `order`; the sort is
a stable permutation (ties keep arrival order), and for sections with
pairwise distinct `order` values the assembled document does not depend on
the arrival sequence. -/
theorem C7_assembleSections_sorted_stable :
    (∀ l : List DocumentSection,
      assembleSections l = joinSep ("\n\n") ((sortSections l).map sectionText) ∧
      List.Sorted (fun a b : DocumentSection => a.order ≤ b.order) (sortSections l) ∧
      List.Perm (sortSections l) l ∧
      (∀ k : Nat, (sortSections l).filter (fun s => s.order == k) =
        l.filter (fun s => s.order == k))) ∧
    (∀ l₁ l₂ : List DocumentSection, List.Perm l₁ l₂ →
      (l₁.map DocumentSection.order).Nodup →
      assembleSections l₁ = assembleSections l₂) := by
  constructor
  · intro l
    exact ⟨rfl, sortSections_sorted l, sortSections_perm l, fun k => sortSections_filter_key k l⟩
  · intro l₁ l₂ hp hnd
    unfold assembleSections
    rw [sortSections_eq_of_perm l₁ l₂ hp hnd]

/-- Witness for C7: two sections arriving out of order concatenate in
ascending order regardless of arrival sequence. -/
theorem C7_witness :
    assembleSections [⟨"b", 2, "B"⟩, ⟨"a", 1, "A"⟩] =
      assembleSections [⟨"a", 1, "A"⟩, ⟨"b", 2, "B"⟩] :=
  C7_assembleSections_sorted_stable.2 [⟨"b", 2, "B"⟩, ⟨"a", 1, "A"⟩]
    [⟨"a", 1, "A"⟩, ⟨"b", 2, "B"⟩] (by decide) (by decide)

/-! The generation orchestrator `generateIacDocument` (C10) and the analysis
orchestrator `analyze` (C1, C2), modelled as explicit state passing driven by
an oracle of external-call outcomes. -/

/-- Work-item status values (`PENDING | IN_PROGRESS | PARTIAL | COMPLETED |
FAILED`). -/
inductive WStatus
  | pendingSt
  | inProgressSt
  | partialSt
  | completedSt
  | failedSt
  deriving Repr, DecidableEq

/-- One observable storage call made by `generateIacDocument`: an
`updateWorkItem` with the status/progress/error fields it sets (`none` =
field not included in the partial update), or a `storeIaCDocument`. -/
inductive StorageOp
  | updateWorkItem (status : Option WStatus) (progress : Option Nat) (error : Option String)
  | storeIaCDocument (content : String) (extension : String)
  deriving Repr, DecidableEq

/-- Outcome of one `invokeBedrockModelForIacGeneration` call: the
cancellation signal won the race, a normal text response, or a thrown
error (carrying its display string). -/
inductive GenEvent
  | cancelledEv
  | response (text : String)
  | errorEv (message : String)
  deriving Repr, DecidableEq

/-- Return value of `generateIacDocument`. -/
structure GenResult where
  content : String
  isCancelled : Bool
  error : Option String
  deriving Repr, DecidableEq

/-- How the generation loop ends: a return, an exception propagating out of
the loop, or — when the oracle list is exhausted without a completion
sentinel — the `while` loop still running. -/
inductive LoopExit
  | done (r : GenResult)
  | thrown (message : String)
  | diverged
  deriving Repr, DecidableEq

/-- `templateType.includes('yaml') ? 'yaml' : templateType.includes('json') ?
'json' : 'tf'`. -/
def extensionFor (templateType : String) : String :=
  if containsSub ("yaml".data) templateType.data then "yaml"
  else if containsSub ("json".data) templateType.data then "json"
  else "tf"

/-- The cancellation note prepended to a partial document. -/
def cancellationNote : String :=
  "# Note: Template generation was cancelled. Below is a partial version.\n\n"

/-- The error note prepended to a partial document. -/
def errorNote : String :=
  "# Note: Template generation encountered an error. Below is a partial version.\n\n"

/-- `'# ' + description + '\n' + content` joined over the sorted sections
(shared shape of the partial and final document assembly). -/
def sortedJoin (l : List DocumentSection) : String :=
  joinSep ("\n\n") ((sortSections l).map sectionText)

/-- The `while (!isComplete)` loop of `generateIacDocument`, one oracle event
per `invokeBedrockModelForIacGeneration` call.  Returns the loop exit and the
trace of storage calls. -/
def generateIacLoop (storageEnabled : Bool) (templateType : String) :
    List GenEvent → List DocumentSection → Nat → LoopExit × List StorageOp
  | [], _, _ => (LoopExit.diverged, [])
  | ev :: evs, allSections, iteration =>
    let progress := min (iteration * 10) 90
    let progressOps : List StorageOp :=
      if storageEnabled then [StorageOp.updateWorkItem none (some progress) none] else []
    match ev with
    | GenEvent.cancelledEv =>
      -- `partialContent` starts with the cancellation note, hence is truthy,
      -- so `partialContent || ''` is `partialContent`.
      let partialContent := cancellationNote ++ sortedJoin allSections
      let ops : List StorageOp :=
        if storageEnabled && allSections.length > 0 then
          [StorageOp.storeIaCDocument partialContent (extensionFor templateType),
           StorageOp.updateWorkItem (some WStatus.partialSt) (some (allSections.length * 10))
             (some "Generation cancelled by user")]
        else []
      (LoopExit.done ⟨partialContent, true, none⟩, progressOps ++ ops)
    | GenEvent.response text =>
      let parsed := parseImplementationModelResponse text
      let newSections := allSections ++ parsed.sections
      if parsed.isComplete then
        -- the loop exits; final assembly, storage and COMPLETED update
        let content := sortedJoin newSections
        let ops : List StorageOp :=
          if storageEnabled then
            [StorageOp.storeIaCDocument content (extensionFor templateType),
             StorageOp.updateWorkItem (some WStatus.completedSt) (some 100) none]
          else []
        (LoopExit.done ⟨content, false, none⟩, progressOps ++ ops)
      else
        -- checkpoint: persist current partial content without a status change
        let checkpointOps : List StorageOp :=
          if newSections.length > 0 && storageEnabled then
            [StorageOp.storeIaCDocument (sortedJoin newSections) (extensionFor templateType)]
          else []
        let (exit, ops) := generateIacLoop storageEnabled templateType evs newSections
          (iteration + 1)
        (exit, progressOps ++ checkpointOps ++ ops)
    | GenEvent.errorEv msg =>
      if storageEnabled && allSections.length > 0 then
        let partialContent := errorNote ++ sortedJoin allSections
        (LoopExit.done ⟨partialContent, false,
            some ("Template generation encountered an error. Showing partial results. " ++ msg)⟩,
          progressOps ++
            [StorageOp.storeIaCDocument partialContent (extensionFor templateType),
             StorageOp.updateWorkItem (some WStatus.partialSt) (some (allSections.length * 10))
               (some msg)])
      else
        (LoopExit.thrown msg, progressOps)

/-- `generateIacDocument`, from the point where the input has been fetched.
A non-image file type throws before the IN_PROGRESS update; otherwise the
work item is marked IN_PROGRESS at 0 and the loop runs.  An exception
propagating out of the loop hits the outer catch, which marks the work item
FAILED and re-throws `'Failed to generate IaC document'`.  `none` in the
first component models a run that never terminates (oracle exhausted). -/
def generateIacDocument (storageEnabled : Bool) (fileTypeIsImage : Bool)
    (templateType : String) (events : List GenEvent) :
    Option (Except String GenResult) × List StorageOp :=
  if !fileTypeIsImage then
    (some (Except.error "Failed to generate IaC document"),
      [StorageOp.updateWorkItem (some WStatus.failedSt) none
        (some "This operation is only supported for architecture diagrams")])
  else
    let initOp := StorageOp.updateWorkItem (some WStatus.inProgressSt) (some 0) none
    match generateIacLoop storageEnabled templateType events [] 0 with
    | (LoopExit.done r, ops) => (some (Except.ok r), initOp :: ops)
    | (LoopExit.thrown msg, ops) =>
      (some (Except.error "Failed to generate IaC document"),
        initOp :: (ops ++ [StorageOp.updateWorkItem (some WStatus.failedSt) none (some msg)]))
    | (LoopExit.diverged, ops) => (none, initOp :: ops)

/-- C10: if the cancellation signal wins the race before any section has been
accumulated, `generateIacDocument` returns `isCancelled = true` with content
equal to exactly the cancellation note, and performs no `storeIaCDocument`
and no `PARTIAL` work-item update. -/
theorem C10_generateIacDocument_cancel_before_sections :
    ∀ (storageEnabled : Bool) (templateType : String) (evs : List GenEvent),
      (generateIacDocument storageEnabled true templateType
          (GenEvent.cancelledEv :: evs)).1 =
        some (Except.ok ⟨cancellationNote, true, none⟩) ∧
      ∀ op ∈ (generateIacDocument storageEnabled true templateType
          (GenEvent.cancelledEv :: evs)).2,
        (∀ c e, op ≠ StorageOp.storeIaCDocument c e) ∧
        (∀ p e, op ≠ StorageOp.updateWorkItem (some WStatus.partialSt) p e) := by
  intro storageEnabled templateType evs
  have hcontent : cancellationNote ++ sortedJoin [] = cancellationNote := by
    show cancellationNote ++ "" = cancellationNote
    simp
  have hrun : generateIacDocument storageEnabled true templateType
      (GenEvent.cancelledEv :: evs) =
      (some (Except.ok ⟨cancellationNote, true, none⟩),
        StorageOp.updateWorkItem (some WStatus.inProgressSt) (some 0) none ::
          (if storageEnabled then [StorageOp.updateWorkItem none (some 0) none] else [])) := by
    cases storageEnabled <;> simp [generateIacDocument, generateIacLoop, hcontent]
  rw [hrun]
  refine ⟨rfl, ?_⟩
  intro op hop
  cases storageEnabled with
  | false =>
    simp only [Bool.false_eq_true, if_false, List.mem_cons, List.not_mem_nil, or_false] at hop
    subst hop
    exact ⟨fun c e => by simp, fun p e => by simp⟩
  | true =>
    simp only [if_true, List.mem_cons, List.not_mem_nil, or_false] at hop
    rcases hop with h | h
    · subst h; exact ⟨fun c e => by simp, fun p e => by simp⟩
    · subst h; exact ⟨fun c e => by simp, fun p e => by simp⟩

/-- Witness for C10 at a concrete input: the only storage call of the
cancelled-before-any-section run is the initial IN_PROGRESS update, which is
neither a store nor a PARTIAL update. -/
theorem C10_witness :
    (∀ c e, StorageOp.updateWorkItem (some WStatus.inProgressSt) (some 0) none ≠
        StorageOp.storeIaCDocument c e) ∧
    (∀ p e, StorageOp.updateWorkItem (some WStatus.inProgressSt) (some 0) none ≠
        StorageOp.updateWorkItem (some WStatus.partialSt) p e) :=
  (C10_generateIacDocument_cancel_before_sections true ("yaml") []).2
    (StorageOp.updateWorkItem (some WStatus.inProgressSt) (some 0) none) (by decide)

/-- The external work item's analysis fields, as mutated by `analyze` via
`updateWorkItem` (fields not named in a partial update keep their value). -/
structure WorkItem where
  analysisStatus : WStatus
  analysisProgress : Nat
  analysisError : Option String
  analysisPartialResults : Bool
  deriving Repr, DecidableEq

/-- One `AnalysisResult` (the value produced by `analyzeQuestion`). -/
structure AnalysisResult where
  pillar : String
  question : String
  questionId : String
  bestPractices : List AnalyzedBestPractice
  deriving Repr, DecidableEq

/-- Outcome of processing one question group inside `analyze`'s loop: the
cancellation signal had fired at the checkpoint, `retrieveFromKnowledgeBase`
threw, `analyzeQuestion` threw, or the question succeeded with a result.
Error events carry the thrown error's display string. -/
inductive QEvent
  | cancelledEv
  | kbError (message : String)
  | infError (message : String)
  | okEv (result : AnalysisResult)
  deriving Repr, DecidableEq

/-- Return value of `analyze`. -/
structure AnalyzeReturn where
  results : List AnalysisResult
  isCancelled : Bool
  error : Option String
  deriving Repr, DecidableEq

/-- `Math.round((processed / total) * 100)` on exact rationals (round half
up; for `total = 0` the JavaScript expression is `NaN`, which no claim
exercises — all runs below have `total > 0`). -/
def jsRound100 (processed total : Nat) : Nat :=
  (200 * processed + total) / (2 * total)

/-- The per-question loop of `analyze` over the flattened question groups of
all selected pillars, one oracle event per question group.  Returns the
function's return value and the final work-item state. -/
def analyzeLoop (total : Nat) :
    List (QuestionGroup × QEvent) → Nat → List AnalysisResult → WorkItem →
      AnalyzeReturn × WorkItem
  | [], _, results, w =>
    -- all questions processed: store results, mark COMPLETED at 100
    (⟨results, false, none⟩,
      { w with analysisStatus := WStatus.completedSt, analysisProgress := 100 })
  | (q, ev) :: _rest, processed, results, w =>
    match ev with
    | QEvent.cancelledEv =>
      if results.length > 0 then
        (⟨results, true, none⟩,
          { w with
            analysisStatus := WStatus.partialSt
            analysisProgress := jsRound100 processed total
            analysisError := some "Analysis cancelled by user."
            analysisPartialResults := true })
      else (⟨results, true, none⟩, w)
    | QEvent.kbError msg =>
      let ret : AnalyzeReturn := ⟨results, false,
        some ("Error retrieving from knowledge base. Analysis stopped. " ++ msg)⟩
      if results.length > 0 then
        (ret,
          { w with
            analysisStatus := WStatus.partialSt
            analysisProgress := jsRound100 processed total
            analysisError := some ("Error retrieving from knowledge base: " ++ msg)
            analysisPartialResults := true })
      else (ret, w)
    | QEvent.infError msg =>
      let errMsg := msg ++ ". Error analyzing question \"" ++ q.pillar ++ " - " ++ q.title ++
        "\". Analysis stopped, " ++ toString processed ++
        " questions where analyzed out of " ++ toString total ++ "."
      if results.length > 0 then
        (⟨results, false, some errMsg⟩,
          { w with
            analysisStatus := WStatus.partialSt
            analysisProgress := jsRound100 processed total
            analysisError := some errMsg
            analysisPartialResults := true })
      else (⟨results, false, some errMsg⟩, w)
    | QEvent.okEv r =>
      analyzeLoop total _rest (processed + 1) (results ++ [r])
        { w with analysisProgress := jsRound100 processed total }

/-- `analyze`, from the point where the user id has been validated and the
work item fetched.  It first marks the work item IN_PROGRESS at 0.
`loadFailure` models `loadBestPractices`/`retrieveBestPractices` throwing
after that point: the outer catch sees an empty results list, performs no
update, and re-raises.  `questions` pairs the flattened question groups of
all selected pillars (so `totalQuestions = questions.length`) with the
outcome of their processing. -/
def analyze (loadFailure : Option String)
    (questions : List (QuestionGroup × QEvent)) (w0 : WorkItem) :
    Except String AnalyzeReturn × WorkItem :=
  let w1 := { w0 with analysisStatus := WStatus.inProgressSt, analysisProgress := 0 }
  match loadFailure with
  | some msg => (Except.error msg, w1)
  | none =>
    (Except.ok (analyzeLoop questions.length questions 0 [] w1).1,
      (analyzeLoop questions.length questions 0 [] w1).2)

/-- Exit behaviour of the per-question loop: the results list only grows;
any exit with a non-empty results list (or clean completion) leaves the work
item COMPLETED or PARTIAL; any error/cancellation exit with an empty results
list leaves the work item untouched. -/
theorem analyzeLoop_exit (total : Nat) :
    ∀ (qs : List (QuestionGroup × QEvent)) (processed : Nat)
      (results : List AnalysisResult) (w : WorkItem),
      results.length ≤ ((analyzeLoop total qs processed results w).1).results.length ∧
      ((((analyzeLoop total qs processed results w).1).results ≠ [] ∨
          (((analyzeLoop total qs processed results w).1).error = none ∧
           ((analyzeLoop total qs processed results w).1).isCancelled = false)) →
        ((analyzeLoop total qs processed results w).2).analysisStatus = WStatus.completedSt ∨
        ((analyzeLoop total qs processed results w).2).analysisStatus = WStatus.partialSt) ∧
      ((((analyzeLoop total qs processed results w).1).results = [] ∧
          (((analyzeLoop total qs processed results w).1).error ≠ none ∨
           ((analyzeLoop total qs processed results w).1).isCancelled = true)) →
        (analyzeLoop total qs processed results w).2 = w) := by
  intro qs
  induction qs with
  | nil =>
    intro processed results w
    refine ⟨Nat.le_refl _, fun _ => Or.inl rfl, fun h => ?_⟩
    rcases h.2 with h2 | h2
    · exact absurd rfl h2
    · cases h2
  | cons qe rest ih =>
    obtain ⟨q, ev⟩ := qe
    intro processed results w
    cases ev with
    | cancelledEv =>
      by_cases hres : results.length > 0
      · have hred : analyzeLoop total ((q, QEvent.cancelledEv) :: rest) processed results w =
            (⟨results, true, none⟩,
              { w with
                analysisStatus := WStatus.partialSt
                analysisProgress := jsRound100 processed total
                analysisError := some "Analysis cancelled by user."
                analysisPartialResults := true }) := by
          simp [analyzeLoop, hres]
        rw [hred]
        refine ⟨Nat.le_refl _, fun _ => Or.inr rfl, fun h => ?_⟩
        exact absurd h.1 (by simpa [List.length_pos_iff_ne_nil] using hres)
      · have hred : analyzeLoop total ((q, QEvent.cancelledEv) :: rest) processed results w =
            (⟨results, true, none⟩, w) := by
          simp [analyzeLoop, hres]
        rw [hred]
        have hnil : results = [] := by
          simpa [List.length_pos_iff_ne_nil] using hres
        refine ⟨Nat.le_refl _, fun h => ?_, fun _ => rfl⟩
        rcases h with h | h
        · exact absurd hnil h
        · cases h.2
    | kbError msg =>
      by_cases hres : results.length > 0
      · have hred : analyzeLoop total ((q, QEvent.kbError msg) :: rest) processed results w =
            (⟨results, false,
                some ("Error retrieving from knowledge base. Analysis stopped. " ++ msg)⟩,
              { w with
                analysisStatus := WStatus.partialSt
                analysisProgress := jsRound100 processed total
                analysisError := some ("Error retrieving from knowledge base: " ++ msg)
                analysisPartialResults := true }) := by
          simp [analyzeLoop, hres]
        rw [hred]
        refine ⟨Nat.le_refl _, fun _ => Or.inr rfl, fun h => ?_⟩
        exact absurd h.1 (by simpa [List.length_pos_iff_ne_nil] using hres)
      · have hred : analyzeLoop total ((q, QEvent.kbError msg) :: rest) processed results w =
            (⟨results, false,
                some ("Error retrieving from knowledge base. Analysis stopped. " ++ msg)⟩, w) := by
          simp [analyzeLoop, hres]
        rw [hred]
        have hnil : results = [] := by
          simpa [List.length_pos_iff_ne_nil] using hres
        refine ⟨Nat.le_refl _, fun h => ?_, fun _ => rfl⟩
        rcases h with h | h
        · exact absurd hnil h
        · cases h.1
    | infError msg =>
      by_cases hres : results.length > 0
      · have hred : analyzeLoop total ((q, QEvent.infError msg) :: rest) processed results w =
            (⟨results, false,
                some (msg ++ ". Error analyzing question \"" ++ q.pillar ++ " - " ++ q.title ++
                  "\". Analysis stopped, " ++ toString processed ++
                  " questions where analyzed out of " ++ toString total ++ ".")⟩,
              { w with
                analysisStatus := WStatus.partialSt
                analysisProgress := jsRound100 processed total
                analysisError := some (msg ++ ". Error analyzing question \"" ++ q.pillar ++
                  " - " ++ q.title ++ "\". Analysis stopped, " ++ toString processed ++
                  " questions where analyzed out of " ++ toString total ++ ".")
                analysisPartialResults := true }) := by
          simp [analyzeLoop, hres]
        rw [hred]
        refine ⟨Nat.le_refl _, fun _ => Or.inr rfl, fun h => ?_⟩
        exact absurd h.1 (by simpa [List.length_pos_iff_ne_nil] using hres)
      · have hred : analyzeLoop total ((q, QEvent.infError msg) :: rest) processed results w =
            (⟨results, false,
                some (msg ++ ". Error analyzing question \"" ++ q.pillar ++ " - " ++ q.title ++
                  "\". Analysis stopped, " ++ toString processed ++
                  " questions where analyzed out of " ++ toString total ++ ".")⟩, w) := by
          simp [analyzeLoop, hres]
        rw [hred]
        have hnil : results = [] := by
          simpa [List.length_pos_iff_ne_nil] using hres
        refine ⟨Nat.le_refl _, fun h => ?_, fun _ => rfl⟩
        rcases h with h | h
        · exact absurd hnil h
        · cases h.1
    | okEv r =>
      have ihs := ih (processed + 1) (results ++ [r])
        { w with analysisProgress := jsRound100 processed total }
      have hred : analyzeLoop total ((q, QEvent.okEv r) :: rest) processed results w =
          analyzeLoop total rest (processed + 1) (results ++ [r])
            { w with analysisProgress := jsRound100 processed total } := rfl
      rw [hred]
      refine ⟨?_, ?_, fun h => ?_⟩
      · exact le_trans (by simp) ihs.1
      · intro _
        apply ihs.2.1
        left
        intro hnil
        have hlen := ihs.1
        rw [hnil] at hlen
        simp at hlen
      · exfalso
        have hlen := ihs.1
        rw [h.1] at hlen
        simp at hlen

/-- C1 (amended): from the moment `analyze` marks the work item IN_PROGRESS,
every exit path that leaves with a non-empty results list — and the normal
completion path — leaves the work item's analysisStatus different from
IN_PROGRESS (COMPLETED or PARTIAL); exit paths with no accumulated results
(error, cancellation, or a re-raised exception before the loop) leave the
status IN_PROGRESS. -/
theorem C1_analyze_exit_status (lf : Option String)
    (qs : List (QuestionGroup × QEvent)) (w0 : WorkItem) :
    (∀ r : AnalyzeReturn, (analyze lf qs w0).1 = Except.ok r →
      (r.results ≠ [] ∨ (r.error = none ∧ r.isCancelled = false)) →
      ((analyze lf qs w0).2.analysisStatus = WStatus.completedSt ∨
       (analyze lf qs w0).2.analysisStatus = WStatus.partialSt)) ∧
    (∀ r : AnalyzeReturn, (analyze lf qs w0).1 = Except.ok r →
      (r.results = [] ∧ (r.error ≠ none ∨ r.isCancelled = true)) →
      (analyze lf qs w0).2.analysisStatus = WStatus.inProgressSt) ∧
    (∀ e : String, (analyze lf qs w0).1 = Except.error e →
      (analyze lf qs w0).2.analysisStatus = WStatus.inProgressSt) := by
  match lf with
  | some msg =>
    exact ⟨fun r hr => (by cases hr), fun r hr => (by cases hr), fun e he => rfl⟩
  | none =>
    have hspec := analyzeLoop_exit qs.length qs 0 []
      { w0 with analysisStatus := WStatus.inProgressSt, analysisProgress := 0 }
    refine ⟨fun r hr hne => ?_, fun r hr hemp => ?_, fun e he => (by cases he)⟩
    · have hr' : r = (analyzeLoop qs.length qs 0 []
          { w0 with analysisStatus := WStatus.inProgressSt, analysisProgress := 0 }).1 := by
        cases hr; rfl
      subst hr'
      exact hspec.2.1 hne
    · have hr' : r = (analyzeLoop qs.length qs 0 []
          { w0 with analysisStatus := WStatus.inProgressSt, analysisProgress := 0 }).1 := by
        cases hr; rfl
      subst hr'
      show (analyzeLoop qs.length qs 0 [] _).2.analysisStatus = WStatus.inProgressSt
      rw [hspec.2.2 hemp]

/-- Witness for the amended C1: a one-question run that succeeds ends
COMPLETED (in particular, not IN_PROGRESS). -/
theorem C1_witness :
    (analyze none [(⟨"Security", "SEC 1", "q1", [], []⟩,
        QEvent.okEv ⟨"Security", "SEC 1", "q1", []⟩)]
      ⟨WStatus.pendingSt, 0, none, false⟩).2.analysisStatus = WStatus.completedSt ∨
    (analyze none [(⟨"Security", "SEC 1", "q1", [], []⟩,
        QEvent.okEv ⟨"Security", "SEC 1", "q1", []⟩)]
      ⟨WStatus.pendingSt, 0, none, false⟩).2.analysisStatus = WStatus.partialSt :=
  (C1_analyze_exit_status none [(⟨"Security", "SEC 1", "q1", [], []⟩,
      QEvent.okEv ⟨"Security", "SEC 1", "q1", []⟩)]
    ⟨WStatus.pendingSt, 0, none, false⟩).1
    ⟨[⟨"Security", "SEC 1", "q1", []⟩], false, none⟩ rfl (by decide)

/-- C1 counterexample: when the very first question's inference call throws
(no accumulated results), `analyze` takes an error-return exit path and the
work item is left with analysisStatus IN_PROGRESS — the claim that every
exit path leaves a status different from IN_PROGRESS is false. -/
theorem C1_counterexample :
    (analyze none [(⟨"Security", "SEC 1", "q1", [], []⟩, QEvent.infError ("boom"))]
        ⟨WStatus.pendingSt, 0, none, false⟩).1 =
      Except.ok ⟨[], false,
        some ("boom. Error analyzing question \"Security - SEC 1\". Analysis stopped, 0 questions where analyzed out of 1.")⟩ ∧
    (analyze none [(⟨"Security", "SEC 1", "q1", [], []⟩, QEvent.infError ("boom"))]
        ⟨WStatus.pendingSt, 0, none, false⟩).2.analysisStatus = WStatus.inProgressSt := by
  constructor
  · rfl
  · rfl

/-- C2: in a five-question run whose first two questions succeed and whose
third inference call throws, `analyze` returns two results and an error
string naming the failed question's pillar and title and reporting 2 of 5
questions analyzed, and the work item is updated to PARTIAL with progress
40. -/
theorem C2_analyze_partial_run :
    analyze none
      [(⟨"Security", "SEC 1", "q1", [], []⟩, QEvent.okEv ⟨"Security", "SEC 1", "q1", []⟩),
       (⟨"Security", "SEC 2", "q2", [], []⟩, QEvent.okEv ⟨"Security", "SEC 2", "q2", []⟩),
       (⟨"Security", "SEC 3", "q3", [], []⟩, QEvent.infError ("boom")),
       (⟨"Security", "SEC 4", "q4", [], []⟩, QEvent.okEv ⟨"Security", "SEC 4", "q4", []⟩),
       (⟨"Security", "SEC 5", "q5", [], []⟩, QEvent.okEv ⟨"Security", "SEC 5", "q5", []⟩)]
      ⟨WStatus.pendingSt, 0, none, false⟩ =
    (Except.ok ⟨[⟨"Security", "SEC 1", "q1", []⟩, ⟨"Security", "SEC 2", "q2", []⟩], false,
        some ("boom. Error analyzing question \"Security - SEC 3\". Analysis stopped, 2 questions where analyzed out of 5.")⟩,
      ⟨WStatus.partialSt, 40,
        some ("boom. Error analyzing question \"Security - SEC 3\". Analysis stopped, 2 questions where analyzed out of 5."),
        true⟩) := by
  rfl

/-! `retrieveBestPractices` (C8). -/

/-- One enriched taxonomy entry (`WellArchitectedBestPractice`), fields
`Pillar`, `Question`, `questionId`, `'Best Practice'`, `bestPracticeId`. -/
structure WellArchitectedBestPractice where
  pillar : String
  question : String
  questionId : String
  bestPractice : String
  bestPracticeId : String
  deriving Repr, DecidableEq

/-- `bp.Pillar.toLowerCase().replace(/\s+/g, '-')`, the pillar slug compared
against the requested pillar id. -/
def pillarSlug (pillar : String) : String :=
  ⟨collapseRuns jsIsSpace '-' (pillar.data.map Char.toLower)⟩

/-- The value stored per question in the grouping `Map`: the pushed
`(practice, id)` pairs in order, and the question id recorded when the key
was first inserted. -/
structure GroupData where
  practices : List (String × String)
  questionId : String
  deriving Repr, DecidableEq

/-- One iteration of the grouping loop: insert an empty group on first sight
of the question (a JavaScript `Map` preserves insertion order, modelled by an
association list), then push the `(practice, id)` pair. -/
def addToGroups (groups : List (String × GroupData)) (bp : WellArchitectedBestPractice) :
    List (String × GroupData) :=
  if groups.any (fun g => g.1 == bp.question) then
    groups.map (fun g =>
      if g.1 == bp.question then
        (g.1, ⟨g.2.practices ++ [(bp.bestPractice, bp.bestPracticeId)], g.2.questionId⟩)
      else g)
  else
    groups ++ [(bp.question, ⟨[(bp.bestPractice, bp.bestPracticeId)], bp.questionId⟩)]

/-- `retrieveBestPractices(pillarId)` over the cached taxonomy: filter by
pillar slug, group by question title preserving first-seen order, and emit
one `QuestionGroup` per group with positionally split name/id arrays.
(`pillarBestPractices[0]` is only read when the map runs over a nonempty
group list, in which case the filtered list is nonempty.) -/
def retrieveBestPractices (cachedBestPractices : List WellArchitectedBestPractice)
    (pillarId : String) : List QuestionGroup :=
  let pillarBestPractices :=
    cachedBestPractices.filter (fun bp => pillarSlug bp.pillar == pillarId)
  let groups := pillarBestPractices.foldl addToGroups []
  groups.map (fun g =>
    { pillar := ((pillarBestPractices.head?).map (fun bp => bp.pillar)).getD ""
      title := g.1
      questionId := g.2.questionId
      bestPractices := g.2.practices.map Prod.fst
      bestPracticeIds := g.2.practices.map Prod.snd })

/-- The `(practice, id)` pairs of the entries of `l` whose question is `q`,
in list order. -/
def pairsOf (l : List WellArchitectedBestPractice) (q : String) : List (String × String) :=
  (l.filter (fun bp => bp.question == q)).map (fun bp => (bp.bestPractice, bp.bestPracticeId))

theorem pairsOf_cons (bp : WellArchitectedBestPractice)
    (l : List WellArchitectedBestPractice) (q : String) :
    pairsOf (bp :: l) q =
      if bp.question == q then (bp.bestPractice, bp.bestPracticeId) :: pairsOf l q
      else pairsOf l q := by
  by_cases h : bp.question == q
  · simp [pairsOf, List.filter_cons, h]
  · simp [pairsOf, List.filter_cons, h]

/-- The fold of `addToGroups` appends, to each pre-existing group, the pairs
of the processed entries with that question, and adds one new group per
fresh question; in particular the practices of every group of the final map
are exactly `pairsOf` of its question. -/
theorem foldl_addToGroups_practices :
    ∀ (l : List WellArchitectedBestPractice) (acc : List (String × GroupData)),
      ∀ g ∈ List.foldl addToGroups acc l,
        (∃ d₀, (g.1, d₀) ∈ acc ∧ g.2.practices = d₀.practices ++ pairsOf l g.1) ∨
        ((∀ d₀, (g.1, d₀) ∉ acc) ∧ g.2.practices = pairsOf l g.1) := by
  intro l
  induction l with
  | nil =>
    intro acc g hg
    left
    refine ⟨g.2, ?_, by simp [pairsOf]⟩
    simpa using hg
  | cons bp t ih =>
    intro acc g hg
    rw [List.foldl_cons] at hg
    have ihg := ih (addToGroups acc bp) g hg
    by_cases hany : (acc.any (fun g => g.1 == bp.question)) = true
    · -- the question already has a group: every entry with that key gets the
      -- pair appended, the others are unchanged
      rcases ihg with ⟨d₁, hd₁, hpr⟩ | ⟨hnone, hpr⟩
      · rw [addToGroups, if_pos hany] at hd₁
        obtain ⟨⟨q₀, d₀⟩, hq₀, hupd⟩ := List.mem_map.mp hd₁
        by_cases hq : (q₀ == bp.question) = true
        · simp only [hq, if_true] at hupd
          have hq1 : g.1 = q₀ := (congrArg Prod.fst hupd).symm
          have hd : d₁ = ⟨d₀.practices ++ [(bp.bestPractice, bp.bestPracticeId)],
              d₀.questionId⟩ := (congrArg Prod.snd hupd).symm
          left
          refine ⟨d₀, by rw [hq1]; exact hq₀, ?_⟩
          rw [hpr, hd, pairsOf_cons]
          have hqeq : (bp.question == g.1) = true := by
            rw [hq1]
            have h1 : q₀ = bp.question := by simpa using hq
            simp [h1]
          rw [if_pos hqeq]
          simp
        · simp only [hq, Bool.false_eq_true, if_false] at hupd
          have hq1 : g.1 = q₀ := (congrArg Prod.fst hupd).symm
          have hd : d₁ = d₀ := (congrArg Prod.snd hupd).symm
          left
          refine ⟨d₀, by rw [hq1]; exact hq₀, ?_⟩
          rw [hpr, hd, pairsOf_cons]
          have hqne : (bp.question == g.1) = false := by
            rw [hq1]
            simp only [beq_eq_false_iff_ne, ne_eq]
            intro hcon
            exact hq (by simp [hcon])
          rw [if_neg (by simp [hqne])]
      · -- g's key is fresh in the updated map, hence fresh in acc and ≠ bp.question
        right
        have hnotacc : ∀ d₀, (g.1, d₀) ∉ acc := by
          intro d₀ hd₀
          apply hnone (if g.1 == bp.question then
              ⟨d₀.practices ++ [(bp.bestPractice, bp.bestPracticeId)], d₀.questionId⟩ else d₀)
          rw [addToGroups, if_pos hany]
          refine List.mem_map.mpr ⟨(g.1, d₀), hd₀, ?_⟩
          by_cases hq : (g.1 == bp.question) = true
          · simp [hq]
          · simp [hq]
        refine ⟨hnotacc, ?_⟩
        rw [hpr, pairsOf_cons]
        have hne : (bp.question == g.1) = false := by
          simp only [beq_eq_false_iff_ne, ne_eq]
          intro hcon
          obtain ⟨⟨q₁, d₁⟩, hq₁, hkey⟩ := List.any_eq_true.mp hany
          have hq1 : q₁ = bp.question := by simpa using hkey
          rw [hq1, hcon] at hq₁
          exact hnotacc d₁ hq₁
        rw [if_neg (by simp [hne])]
    · rcases ihg with ⟨d₁, hd₁, hpr⟩ | ⟨hnone, hpr⟩
      · rw [addToGroups, if_neg hany] at hd₁
        rcases List.mem_append.mp hd₁ with hin | hnew
        · -- an entry of acc: its key cannot be bp.question
          have hne : (bp.question == g.1) = false := by
            simp only [beq_eq_false_iff_ne, ne_eq]
            intro hcon
            have : (acc.any (fun g => g.1 == bp.question)) = true :=
              List.any_eq_true.mpr ⟨(g.1, d₁), hin, by simp [hcon]⟩
            exact hany this
          left
          refine ⟨d₁, hin, ?_⟩
          rw [hpr, pairsOf_cons, if_neg (by simp [hne])]
        · -- the freshly inserted group
          simp only [List.mem_singleton, Prod.ext_iff] at hnew
          have hq1 : g.1 = bp.question := hnew.1
          have hd : d₁ = ⟨[(bp.bestPractice, bp.bestPracticeId)], bp.questionId⟩ := hnew.2
          right
          constructor
          · intro d₀ hd₀
            have : (acc.any (fun g => g.1 == bp.question)) = true :=
              List.any_eq_true.mpr ⟨(g.1, d₀), hd₀, by simp [hq1]⟩
            exact hany this
          · rw [hpr, hd, pairsOf_cons, if_pos (by simp [hq1])]
            simp
      · right
        constructor
        · intro d₀ hd₀
          apply hnone d₀
          rw [addToGroups, if_neg hany]
          exact List.mem_append.mpr (Or.inl hd₀)
        · rw [hpr, pairsOf_cons]
          have hne : (bp.question == g.1) = false := by
            simp only [beq_eq_false_iff_ne, ne_eq]
            intro hcon
            apply hnone ⟨[(bp.bestPractice, bp.bestPracticeId)], bp.questionId⟩
            rw [addToGroups, if_neg hany]
            refine List.mem_append.mpr (Or.inr ?_)
            simp [hcon]
          rw [if_neg (by simp [hne])]

/-- C8: every `QuestionGroup` returned by `retrieveBestPractices` has
`bestPractices` and `bestPracticeIds` arrays of equal length, positionally
aligned: both are the respective projections of the `(practice, id)` pairs
of the pillar-filtered taxonomy entries carrying that question, in taxonomy
order (so the id at index `i` belongs to the practice name at index `i`,
and practices appear in first-seen taxonomy order). -/
theorem C8_retrieveBestPractices_aligned :
    ∀ (cached : List WellArchitectedBestPractice) (pillarId : String),
      ∀ g ∈ retrieveBestPractices cached pillarId,
        g.bestPractices.length = g.bestPracticeIds.length ∧
        g.bestPractices = ((cached.filter (fun bp => pillarSlug bp.pillar == pillarId)).filter
          (fun bp => bp.question == g.title)).map (fun bp => bp.bestPractice) ∧
        g.bestPracticeIds = ((cached.filter (fun bp => pillarSlug bp.pillar == pillarId)).filter
          (fun bp => bp.question == g.title)).map (fun bp => bp.bestPracticeId) := by
  intro cached pillarId g hg
  obtain ⟨gr, hgr, hmk⟩ := List.mem_map.mp hg
  have hch := foldl_addToGroups_practices
    (cached.filter (fun bp => pillarSlug bp.pillar == pillarId)) [] gr hgr
  rcases hch with ⟨d₀, hd₀, _⟩ | ⟨_, hpr⟩
  · simp at hd₀
  · have htitle : g.title = gr.1 := (congrArg QuestionGroup.title hmk).symm
    have hbp : g.bestPractices = gr.2.practices.map Prod.fst :=
      (congrArg QuestionGroup.bestPractices hmk).symm
    have hid : g.bestPracticeIds = gr.2.practices.map Prod.snd :=
      (congrArg QuestionGroup.bestPracticeIds hmk).symm
    rw [hbp, hid, hpr, htitle]
    refine ⟨by simp, ?_, ?_⟩
    · rw [pairsOf, List.map_map]
      rfl
    · rw [pairsOf, List.map_map]
      rfl

/-- Witness for C8 on a concrete two-practice taxonomy. -/
theorem C8_witness :
    (⟨"Security", "Q1", "q1", ["BP1", "BP2"], ["id1", "id2"]⟩ :
        QuestionGroup).bestPractices.length =
      (⟨"Security", "Q1", "q1", ["BP1", "BP2"], ["id1", "id2"]⟩ :
        QuestionGroup).bestPracticeIds.length :=
  (C8_retrieveBestPractices_aligned
    [⟨"Security", "Q1", "q1", "BP1", "id1"⟩, ⟨"Security", "Q1", "q1", "BP2", "id2"⟩]
    ("security")
    ⟨"Security", "Q1", "q1", ["BP1", "BP2"], ["id1", "id2"]⟩ (by decide)).1

/-! `getMoreDetails` (C9). -/

/-- A selected best-practice item as passed to `getMoreDetails`; only the
fields the function reads are modelled. -/
structure DetailItem where
  name : String
  applied : Bool
  deriving Repr, DecidableEq

/-- Return value of `getMoreDetails`. -/
structure MoreDetailsReturn where
  content : String
  error : Option String
  deriving Repr, DecidableEq

/-- The per-item `for` loop of `getMoreDetails`.  The oracle gives, for each
filtered item in turn, the number of inference calls its inner `while` loop
makes and either the accumulated item details or the thrown error (caught:
the loop sets `hasError` and continues with the next item).  The second
component of the result counts inference calls. -/
def detailsLoop (itemOutcomes : Nat → Nat × Except String String) :
    List DetailItem → Nat → String → Bool → Nat →
      Except String MoreDetailsReturn × Nat
  | [], _, allDetails, hasError, calls =>
    if allDetails ≠ "" && hasError then
      (Except.ok ⟨allDetails, some "Some items could not be analyzed. Showing partial results."⟩,
        calls)
    else if allDetails = "" then
      (Except.error "Failed to generate any detailed analysis", calls)
    else
      (Except.ok ⟨⟨jsTrim allDetails.data⟩, none⟩, calls)
  | _ :: t, i, allDetails, hasError, calls =>
    let (n, outcome) := itemOutcomes i
    match outcome with
    | Except.ok itemDetails =>
      detailsLoop itemOutcomes t (i + 1) (allDetails ++ itemDetails ++ "\n\n---\n\n")
        hasError (calls + n)
    | Except.error _ =>
      detailsLoop itemOutcomes t (i + 1) allDetails true (calls + n)

/-- `getMoreDetails(selectedItems, userId, fileId, templateType)`, from the
point where the work item has been fetched (`fileType` is its file type).
It filters to the non-applied items, validates its inputs, and then emits a
first progress event whose status indexes `filteredItems[0]` — a `TypeError`
(re-thrown by the outer catch, since a `TypeError` is an `Error`) when the
filtered list is empty.  The second component counts inference calls. -/
def getMoreDetails (selectedItems : List DetailItem) (userId fileId : String)
    (fileType : Option String) (itemOutcomes : Nat → Nat × Except String String) :
    Except String MoreDetailsReturn × Nat :=
  let filteredItems := selectedItems.filter (fun item => !item.applied)
  if selectedItems.isEmpty then
    (Except.error "No items selected for detailed analysis", 0)
  else if fileId = "" ∨ userId = "" then
    (Except.error "File ID and User ID are required", 0)
  else
    match fileType with
    | none => (Except.error "No file type provided", 0)
    | some _ =>
      match filteredItems.head? with
      | none =>
        (Except.error "TypeError: Cannot read properties of undefined (reading 'name')", 0)
      | some _ => detailsLoop itemOutcomes filteredItems 0 "" false 0

/-- C9: when every selected item has `applied = true` (the filter to
non-applied items yields an empty list) while `selectedItems` is non-empty,
`getMoreDetails` fails with an error — the first progress emission indexes
the empty filtered list — and makes no inference call. -/
theorem C9_getMoreDetails_all_applied_fails :
    ∀ (items : List DetailItem) (userId fileId : String) (ft : String)
      (itemOutcomes : Nat → Nat × Except String String),
      items ≠ [] → (∀ i ∈ items, i.applied = true) → userId ≠ "" → fileId ≠ "" →
      getMoreDetails items userId fileId (some ft) itemOutcomes =
        (Except.error "TypeError: Cannot read properties of undefined (reading 'name')", 0) := by
  intro items userId fileId ft itemOutcomes hne happ huser hfile
  have hfilter : items.filter (fun item => !item.applied) = [] := by
    rw [List.filter_eq_nil_iff]
    intro a ha
    simp [happ a ha]
  unfold getMoreDetails
  rw [if_neg (by simpa using hne), if_neg (by simp [huser, hfile]), hfilter]
  rfl

/-- Witness for C9 at a concrete input. -/
theorem C9_witness :
    getMoreDetails [⟨"BP1", true⟩] ("u1") ("f1") (some ("image/png"))
        (fun _ => (0, Except.ok "")) =
      (Except.error "TypeError: Cannot read properties of undefined (reading 'name')", 0) :=
  C9_getMoreDetails_all_applied_fails [⟨"BP1", true⟩] ("u1") ("f1") ("image/png")
    (fun _ => (0, Except.ok "")) (by decide) (by decide) (by decide) (by decide)

/-! `cleanJsonString` (C5). -/

/-- First index of a character, `String.prototype.indexOf`. -/
def firstIdx (c : Char) : List Char → Option Nat
  | [] => none
  | d :: t => if d = c then some 0 else (firstIdx c t).map (· + 1)

/-- Last index of a character, `String.prototype.lastIndexOf`. -/
def lastIdx (c : Char) (s : List Char) : Option Nat :=
  (firstIdx c s.reverse).map (fun i => s.length - 1 - i)

/-- `String.prototype.substring(a, b)`: swaps its arguments when `a > b`. -/
def jsSubstring (s : List Char) (a b : Nat) : List Char :=
  (s.take (max a b)).drop (min a b)

/-- The first step of `cleanJsonString`: trim everything outside the
outermost curly braces — `substring(indexOf('{'), lastIndexOf('}') + 1)`
when both exist. -/
def trimToBraces (s : List Char) : List Char :=
  match firstIdx '{' s, lastIdx '}' s with
  | some f, some l => jsSubstring s f (l + 1)
  | _, _ => s

/-- Model of `.replace(/(?<!")X\s+/g, 'X')` for a single character `X`
(used with `:` and `,`): delete every maximal whitespace run that
immediately follows an `X` whose preceding character is not `"`.
`skipping` records that the current position is inside a run being deleted;
`prev` is the character before the current position in the original string
(the lookbehind reads the original string). -/
def rmWsAfterMarkAux (mark : Char) : Bool → Option Char → List Char → List Char
  | skipping, prev, c :: t =>
    if skipping ∧ jsIsSpace c then rmWsAfterMarkAux mark true (some c) t
    else if c = mark ∧ prev ≠ some '"' then mark :: rmWsAfterMarkAux mark true (some c) t
    else c :: rmWsAfterMarkAux mark false (some c) t
  | _, _, [] => []

/-- `.replace(/(?<!")X\s+/g, 'X')`. -/
def rmWsAfterMark (mark : Char) (s : List Char) : List Char :=
  rmWsAfterMarkAux mark false none s

/-- Model of `.replace(/\s+X/g, 'X')` for a single character `X` (used with
`:`, `,`, `}` and `]`): delete every maximal whitespace run immediately
followed by an `X`.  `pending` holds the current whitespace run (reversed),
flushed when a non-`X` non-whitespace character arrives and dropped when the
run turns out to precede an `X`. -/
def rmWsBeforeMarkAux (mark : Char) (pending : List Char) : List Char → List Char
  | [] => pending.reverse
  | c :: t =>
    if jsIsSpace c then rmWsBeforeMarkAux mark (c :: pending) t
    else if c = mark then mark :: rmWsBeforeMarkAux mark [] t
    else pending.reverse ++ c :: rmWsBeforeMarkAux mark [] t

/-- `.replace(/\s+X/g, 'X')`. -/
def rmWsBeforeMark (mark : Char) (s : List Char) : List Char :=
  rmWsBeforeMarkAux mark [] s

/-- Model of `.replace(/X\s+/g, 'X')` for a single character `X` (used with
`{` and `[`): delete every maximal whitespace run immediately following an
`X`. -/
def rmWsAfterOpenAux (mark : Char) : Bool → List Char → List Char
  | skipping, c :: t =>
    if skipping ∧ jsIsSpace c then rmWsAfterOpenAux mark true t
    else if c = mark then mark :: rmWsAfterOpenAux mark true t
    else c :: rmWsAfterOpenAux mark false t
  | _, [] => []

/-- `.replace(/X\s+/g, 'X')`. -/
def rmWsAfterOpen (mark : Char) (s : List Char) : List Char :=
  rmWsAfterOpenAux mark false s

/-- Global literal replacement `.replace(/pat/g, rep)` for a plain nonempty
pattern, with fuel for structural recursion (fuel equal to the string length
never runs out, since every step consumes at least one character). -/
def replaceLitAux (pat rep : List Char) : Nat → List Char → List Char
  | 0, s => s
  | _ + 1, [] => []
  | fuel + 1, c :: t =>
    if List.isPrefixOf pat (c :: t) then
      rep ++ replaceLitAux pat rep fuel ((c :: t).drop pat.length)
    else c :: replaceLitAux pat rep fuel t

/-- `.replace(/pat/g, rep)` for a plain nonempty pattern. -/
def replaceLit (pat rep s : List Char) : List Char :=
  replaceLitAux pat rep s.length s

/-- `cleanJsonString(jsonString)`: trim to the outermost braces, collapse
whitespace runs to single spaces, remove spaces around colons and commas
(spaces after a colon or comma are kept when the colon or comma is directly
preceded by a quote, per the negative lookbehind), remove spaces inside
brackets, and rewrite the Python boolean literals `: True` / `: False` to
`: true` / `: false`. -/
def cleanJsonString (jsonString : String) : String :=
  let s1 := trimToBraces jsonString.data
  let s2 := collapseRuns jsIsSpace ' ' s1
  let s3 := rmWsAfterMark ':' s2
  let s4 := rmWsBeforeMark ':' s3
  let s5 := rmWsAfterMark ',' s4
  let s6 := rmWsBeforeMark ',' s5
  let s7 := rmWsAfterOpen '{' s6
  let s8 := rmWsBeforeMark '}' s7
  let s9 := rmWsAfterOpen '[' s8
  let s10 := rmWsBeforeMark ']' s9
  let s11 := replaceLit (": True".data) (": true".data) s10
  let s12 := replaceLit (": False".data) (": false".data) s11
  ⟨s12⟩

/-! Normal-form predicates for the idempotence of `cleanJsonString` (C5).
Each pipeline step establishes its predicate, all later steps preserve it,
and on a string satisfying all of them every step is the identity. -/

/-- Whitespace-collapsed normal form: every whitespace character is a plain
space and no two are adjacent. -/
def WsNormal (t : List Char) : Prop :=
  (∀ c ∈ t, jsIsSpace c = true → c = ' ') ∧
  List.Chain' (fun a b => ¬(jsIsSpace a = true ∧ jsIsSpace b = true)) t

/-- No whitespace directly after an occurrence of `mark` that is not
preceded by a double quote; `prev` is the character just before the list in
the enclosing string. -/
def NoWsAfterMark (mark : Char) : Option Char → List Char → Prop
  | _, [] => True
  | prev, c :: t =>
    (c = mark → prev ≠ some '"' → ∀ d, t.head? = some d → jsIsSpace d = false) ∧
    NoWsAfterMark mark (some c) t

/-- `pat` occurs nowhere in `t`. -/
def NoOcc (pat t : List Char) : Prop := ∀ n : Nat, ¬ List.isPrefixOf pat (t.drop n)

/-- The brace-trimming step is idle: one of the braces is absent, or the
string already starts with the first `{` and ends with the last `}`. -/
def BraceOK (t : List Char) : Prop :=
  ('{' ∉ t) ∨ ('}' ∉ t) ∨ (t.head? = some '{' ∧ t.getLast? = some '}')

/-- The boolean rewrites change only the capitalization of `T` and `F`;
identify those pairs. -/
def normChar (c : Char) : Char :=
  if c = 'T' then 't' else if c = 'F' then 'f' else c

/-- Equality up to the `T`/`t` and `F`/`f` identifications. -/
def NormEq (t₁ t₂ : List Char) : Prop := t₁.map normChar = t₂.map normChar

/-- `NoWsAfterMark` only uses `prev` at the head; any non-quote `prev`
implies the predicate for every `prev`. -/
theorem NoWsAfterMark_mono (mark : Char) (p : Option Char) (t : List Char)
    (hp : p ≠ some '"') (h : NoWsAfterMark mark p t) :
    ∀ q : Option Char, NoWsAfterMark mark q t := by
  intro q
  cases t with
  | nil => trivial
  | cons c t => exact ⟨fun hc _ => h.1 hc hp, h.2⟩

/-! Identity lemmas: each step is the identity on its normal form. -/

theorem rmWsAfterMarkAux_id (mark : Char) :
    ∀ (t : List Char) (prev : Option Char) (b : Bool),
      NoWsAfterMark mark prev t →
      (b = true → ∀ d, t.head? = some d → jsIsSpace d = false) →
      rmWsAfterMarkAux mark b prev t = t := by
  intro t
  induction t with
  | nil => intro prev b _ _; cases b <;> rfl
  | cons c t ih =>
    intro prev b hnf hb
    unfold rmWsAfterMarkAux
    by_cases hsk : b = true ∧ jsIsSpace c = true
    · exact absurd (hb hsk.1 c rfl) (by simp [hsk.2])
    · rw [if_neg (by simpa using hsk)]
      by_cases hm : c = mark ∧ prev ≠ some '"'
      · rw [if_pos hm]
        have hrec : rmWsAfterMarkAux mark true (some c) t = t :=
          ih (some c) true hnf.2 (fun _ d hd => hnf.1 hm.1 hm.2 d hd)
        rw [hrec, hm.1]
      · rw [if_neg hm]
        congr 1
        exact ih (some c) false hnf.2 (by simp)

theorem rmWsAfterMark_id (mark : Char) (t : List Char)
    (h : NoWsAfterMark mark none t) : rmWsAfterMark mark t = t :=
  rmWsAfterMarkAux_id mark t none false h (by simp)

theorem rmWsBeforeMarkAux_flush (mark : Char) :
    ∀ (t pending : List Char),
      (t.head? = some mark → pending = []) →
      List.Chain' (fun a b => ¬(jsIsSpace a = true ∧ b = mark)) t →
      rmWsBeforeMarkAux mark pending t = pending.reverse ++ t := by
  intro t
  induction t with
  | nil => intro pending _ _; simp [rmWsBeforeMarkAux]
  | cons c t ih =>
    intro pending hhd hch
    unfold rmWsBeforeMarkAux
    by_cases hws : jsIsSpace c = true
    · rw [if_pos hws]
      have hh : t.head? = some mark → False := by
        intro hm
        exact (List.chain'_cons'.mp hch).1 mark hm ⟨hws, rfl⟩
      rw [ih (c :: pending) (fun hm => (hh hm).elim) (List.Chain'.tail hch)]
      simp
    · rw [if_neg hws]
      by_cases hm : c = mark
      · rw [if_pos hm]
        have hpend : pending = [] := hhd (by rw [hm]; rfl)
        rw [ih [] (by simp) (List.Chain'.tail hch), hpend, hm]
        simp
      · rw [if_neg hm]
        rw [ih [] (by simp) (List.Chain'.tail hch)]
        simp

theorem rmWsBeforeMark_id (mark : Char) (t : List Char)
    (h : List.Chain' (fun a b => ¬(jsIsSpace a = true ∧ b = mark)) t) :
    rmWsBeforeMark mark t = t := by
  unfold rmWsBeforeMark
  rw [rmWsBeforeMarkAux_flush mark t [] (fun _ => rfl) h]
  rfl

theorem rmWsAfterOpenAux_id (mark : Char) :
    ∀ (t : List Char) (b : Bool),
      List.Chain' (fun a b => ¬(a = mark ∧ jsIsSpace b = true)) t →
      (b = true → ∀ d, t.head? = some d → jsIsSpace d = false) →
      rmWsAfterOpenAux mark b t = t := by
  intro t
  induction t with
  | nil => intro b _ _; cases b <;> rfl
  | cons c t ih =>
    intro b hch hb
    unfold rmWsAfterOpenAux
    by_cases hsk : b = true ∧ jsIsSpace c = true
    · exact absurd (hb hsk.1 c rfl) (by simp [hsk.2])
    · rw [if_neg (by simpa using hsk)]
      by_cases hm : c = mark
      · rw [if_pos hm, hm]
        congr 1
        refine ih true (List.Chain'.tail hch) (fun _ d hd => ?_)
        have := (List.chain'_cons'.mp hch).1 d hd
        by_contra hws
        exact this ⟨hm, by simpa using hws⟩
      · rw [if_neg hm]
        congr 1
        exact ih false (List.Chain'.tail hch) (by simp)

theorem rmWsAfterOpen_id (mark : Char) (t : List Char)
    (h : List.Chain' (fun a b => ¬(a = mark ∧ jsIsSpace b = true)) t) :
    rmWsAfterOpen mark t = t :=
  rmWsAfterOpenAux_id mark t false h (by simp)

theorem NoOcc_tail (pat : List Char) (c : Char) (t : List Char)
    (h : NoOcc pat (c :: t)) : NoOcc pat t := by
  intro n
  have := h (n + 1)
  simpa using this

theorem replaceLitAux_id (pat rep : List Char) :
    ∀ (t : List Char) (fuel : Nat), NoOcc pat t → replaceLitAux pat rep fuel t = t := by
  intro t
  induction t with
  | nil => intro fuel _; cases fuel <;> rfl
  | cons c t ih =>
    intro fuel h
    cases fuel with
    | zero => rfl
    | succ fuel =>
      unfold replaceLitAux
      rw [if_neg (by simpa using h 0)]
      rw [ih fuel (NoOcc_tail pat c t h)]

theorem replaceLit_id (pat rep t : List Char) (h : NoOcc pat t) :
    replaceLit pat rep t = t :=
  replaceLitAux_id pat rep t t.length h

theorem collapseRuns_id (t : List Char) (h : WsNormal t) :
    collapseRuns jsIsSpace ' ' t = t :=
  (collapseRunsAux_id jsIsSpace ' ' t (fun c hc hw => h.1 c hc hw) h.2).1

/-! `trimToBraces`: index lemmas and identity on `BraceOK` strings. -/

theorem firstIdx_eq_none_iff (c : Char) : ∀ s : List Char, firstIdx c s = none ↔ c ∉ s := by
  intro s
  induction s with
  | nil => simp [firstIdx]
  | cons d t ih =>
    unfold firstIdx
    by_cases hd : d = c
    · simp [hd]
    · rw [if_neg hd]
      simp only [Option.map_eq_none', List.mem_cons, not_or]
      constructor
      · intro h
        exact ⟨fun hc => hd hc.symm, ih.mp h⟩
      · intro h
        exact ih.mpr h.2

theorem firstIdx_getElem (c : Char) :
    ∀ (s : List Char) (n : Nat), firstIdx c s = some n → s[n]? = some c := by
  intro s
  induction s with
  | nil => intro n h; simp [firstIdx] at h
  | cons d t ih =>
    intro n h
    unfold firstIdx at h
    by_cases hd : d = c
    · rw [if_pos hd] at h
      cases h
      simp [hd]
    · rw [if_neg hd] at h
      obtain ⟨m, hm, hmn⟩ := Option.map_eq_some'.mp h
      subst hmn
      simpa using ih m hm

theorem firstIdx_not_take (c : Char) :
    ∀ (s : List Char) (n : Nat), firstIdx c s = some n → c ∉ s.take n := by
  intro s
  induction s with
  | nil => intro n h; simp [firstIdx] at h
  | cons d t ih =>
    intro n h
    unfold firstIdx at h
    by_cases hd : d = c
    · rw [if_pos hd] at h
      cases h
      simp
    · rw [if_neg hd] at h
      obtain ⟨m, hm, hmn⟩ := Option.map_eq_some'.mp h
      subst hmn
      rw [List.take_succ_cons]
      intro hmem
      rcases List.mem_cons.mp hmem with h1 | h1
      · exact hd h1.symm
      · exact ih m hm h1

theorem firstIdx_head (c : Char) (s : List Char) (h : s.head? = some c) :
    firstIdx c s = some 0 := by
  obtain ⟨t, rfl⟩ := List.head?_eq_some_iff.mp h
  simp [firstIdx]

theorem lastIdx_eq_none_iff (c : Char) (s : List Char) : lastIdx c s = none ↔ c ∉ s := by
  unfold lastIdx
  rw [Option.map_eq_none', firstIdx_eq_none_iff, List.mem_reverse]

theorem lastIdx_spec (c : Char) (s : List Char) (l : Nat) (h : lastIdx c s = some l) :
    s[l]? = some c ∧ c ∉ s.drop (l + 1) ∧ l < s.length := by
  unfold lastIdx at h
  obtain ⟨i, hi, hil⟩ := Option.map_eq_some'.mp h
  have hrev := firstIdx_getElem c s.reverse i hi
  have hitake := firstIdx_not_take c s.reverse i hi
  have hilen : i < s.length := by
    obtain ⟨hlt, _⟩ := List.getElem?_eq_some_iff.mp hrev
    simpa using hlt
  have hl : l = s.length - 1 - i := hil.symm
  subst hl
  refine ⟨?_, ?_, by omega⟩
  · rw [← List.getElem?_reverse (by simpa using hilen)] at *
    exact hrev
  · have hdrop : (s.reverse.take i).reverse = s.drop (s.length - 1 - i + 1) := by
      rw [List.reverse_take]
      simp only [List.reverse_reverse, List.length_reverse]
      congr 1
      omega
    rw [← hdrop]
    simpa using hitake

theorem lastIdx_getLast (c : Char) (s : List Char) (h : s.getLast? = some c) :
    lastIdx c s = some (s.length - 1) := by
  rw [List.getLast?_eq_head?_reverse] at h
  unfold lastIdx
  rw [firstIdx_head c s.reverse h]
  simp

theorem trimToBraces_id (t : List Char) (h : BraceOK t) : trimToBraces t = t := by
  rcases h with h | h | ⟨hh, hl⟩
  · have hf : firstIdx '{' t = none := (firstIdx_eq_none_iff _ _).mpr h
    unfold trimToBraces
    rcases hlv : lastIdx '}' t with _ | l <;> rw [hf]
  · have hlv : lastIdx '}' t = none := (lastIdx_eq_none_iff _ _).mpr h
    unfold trimToBraces
    rcases hf : firstIdx '{' t with _ | f <;> rw [hlv]
  · have hf : firstIdx '{' t = some 0 := firstIdx_head _ _ hh
    have hlv : lastIdx '}' t = some (t.length - 1) := lastIdx_getLast _ _ hl
    have hlen : 1 ≤ t.length := by
      obtain ⟨u, rfl⟩ := List.head?_eq_some_iff.mp hh
      simp
    unfold trimToBraces
    rw [hf, hlv]
    show jsSubstring t 0 (t.length - 1 + 1) = t
    unfold jsSubstring
    have h1 : t.length - 1 + 1 = t.length := by omega
    rw [h1]
    simp

theorem trimToBraces_braceOK (s : List Char) : BraceOK (trimToBraces s) := by
  rcases hf : firstIdx '{' s with _ | f
  · have h1 : '{' ∉ s := (firstIdx_eq_none_iff _ _).mp hf
    have ht : trimToBraces s = s := by
      unfold trimToBraces
      rcases hlv : lastIdx '}' s with _ | l <;> rw [hf]
    rw [ht]
    exact Or.inl h1
  · rcases hlv : lastIdx '}' s with _ | l
    · have h1 : '}' ∉ s := (lastIdx_eq_none_iff _ _).mp hlv
      have ht : trimToBraces s = s := by
        unfold trimToBraces
        rw [hf, hlv]
      rw [ht]
      exact Or.inr (Or.inl h1)
    · have ht : trimToBraces s = jsSubstring s f (l + 1) := by
        unfold trimToBraces
        rw [hf, hlv]
      obtain ⟨hsl, hnotafter, hllen⟩ := lastIdx_spec '}' s l hlv
      rw [ht]
      by_cases hfl : f ≤ l
      · refine Or.inr (Or.inr ⟨?_, ?_⟩)
        · unfold jsSubstring
          have hmax : max f (l + 1) = l + 1 := by omega
          have hmin : min f (l + 1) = f := by omega
          rw [hmax, hmin, List.head?_drop, List.getElem?_take_of_lt (by omega)]
          exact firstIdx_getElem '{' s f hf
        · unfold jsSubstring
          have hmax : max f (l + 1) = l + 1 := by omega
          have hmin : min f (l + 1) = f := by omega
          rw [hmax, hmin, List.getLast?_eq_getElem?, List.getElem?_drop]
          have hlen : ((s.take (l + 1)).drop f).length = l + 1 - f := by
            simp only [List.length_drop, List.length_take]
            omega
          rw [hlen]
          have harith : f + (l + 1 - f - 1) = l := by omega
          rw [harith, List.getElem?_take_of_lt (by omega)]
          exact hsl
      · refine Or.inl ?_
        unfold jsSubstring
        have hmax : max f (l + 1) = f := by omega
        have hmin : min f (l + 1) = l + 1 := by omega
        rw [hmax, hmin]
        intro hmem
        exact firstIdx_not_take '{' s f hf ((List.drop_sublist _ _).mem hmem)

/-! Establishment lemmas: each step's output satisfies its normal form. -/

theorem collapseRuns_wsNormal (s : List Char) : WsNormal (collapseRuns jsIsSpace ' ' s) := by
  constructor
  · intro c hc hw
    rcases collapseRunsAux_mem jsIsSpace ' ' false s c hc with h | h
    · exact h
    · rw [hw] at h; cases h
  · exact collapseRunsAux_chain jsIsSpace ' ' false s

theorem rmWsAfterMarkAux_false_head (mark : Char) (prev : Option Char) (t : List Char) :
    (rmWsAfterMarkAux mark false prev t).head? = t.head? := by
  cases t with
  | nil => rfl
  | cons c t =>
    unfold rmWsAfterMarkAux
    rw [if_neg (by simp)]
    by_cases hm : c = mark ∧ prev ≠ some '"'
    · rw [if_pos hm]
      simp [hm.1]
    · rw [if_neg hm]
      rfl

theorem rmWsAfterMarkAux_true_head (mark : Char) (hm : jsIsSpace mark = false) :
    ∀ (t : List Char) (prev : Option Char) (d : Char),
      (rmWsAfterMarkAux mark true prev t).head? = some d → jsIsSpace d = false := by
  intro t
  induction t with
  | nil => intro prev d h; cases h
  | cons c t ih =>
    intro prev d h
    unfold rmWsAfterMarkAux at h
    by_cases hws : jsIsSpace c = true
    · rw [if_pos ⟨rfl, hws⟩] at h
      exact ih (some c) d h
    · rw [if_neg (by simp [hws])] at h
      by_cases hmk : c = mark ∧ prev ≠ some '"'
      · rw [if_pos hmk] at h
        cases h
        exact hm
      · rw [if_neg hmk] at h
        cases h
        simpa using hws

theorem rmWsAfterMarkAux_estab (mark : Char) (hmws : jsIsSpace mark = false)
    (hmq : mark ≠ '"') :
    ∀ (t : List Char) (b : Bool) (prev : Option Char),
      NoWsAfterMark mark prev (rmWsAfterMarkAux mark b prev t) := by
  intro t
  induction t with
  | nil => intro b prev; cases b <;> trivial
  | cons c t ih =>
    intro b prev
    unfold rmWsAfterMarkAux
    by_cases hsk : b = true ∧ jsIsSpace c = true
    · rw [if_pos hsk]
      refine NoWsAfterMark_mono mark (some c) _ ?_ (ih true (some c)) prev
      intro hq
      rw [Option.some_inj] at hq
      subst hq
      exact absurd hsk.2 (by decide)
    · rw [if_neg hsk]
      by_cases hmk : c = mark ∧ prev ≠ some '"'
      · rw [if_pos hmk]
        refine ⟨fun _ _ d hd => rmWsAfterMarkAux_true_head mark hmws t (some c) d hd, ?_⟩
        refine NoWsAfterMark_mono mark (some c) _ ?_ (ih true (some c)) (some mark)
        intro hq
        rw [Option.some_inj] at hq
        exact hmq (hmk.1 ▸ hq)
      · rw [if_neg hmk]
        refine ⟨fun hcm hprev d hd => absurd ⟨hcm, hprev⟩ hmk, ih false (some c)⟩

theorem rmWsAfterMark_estab (mark : Char) (hmws : jsIsSpace mark = false)
    (hmq : mark ≠ '"') (s : List Char) :
    NoWsAfterMark mark none (rmWsAfterMark mark s) :=
  rmWsAfterMarkAux_estab mark hmws hmq s false none

theorem chain'_of_all_ws (mark : Char) (hm : jsIsSpace mark = false) (l : List Char)
    (h : ∀ x ∈ l, jsIsSpace x = true) :
    List.Chain' (fun a b => ¬(jsIsSpace a = true ∧ b = mark)) l := by
  induction l with
  | nil => trivial
  | cons c t ih =>
    refine List.chain'_cons'.mpr ⟨?_, ih (fun x hx => h x (List.mem_cons_of_mem c hx))⟩
    intro y hy hcon
    have := h y (List.mem_cons_of_mem c (List.mem_of_mem_head? hy))
    rw [hcon.2] at this
    rw [this] at hm
    cases hm

theorem rmWsBeforeMarkAux_estab (mark : Char) (hm : jsIsSpace mark = false) :
    ∀ (t pending : List Char), (∀ x ∈ pending, jsIsSpace x = true) →
      List.Chain' (fun a b => ¬(jsIsSpace a = true ∧ b = mark))
        (rmWsBeforeMarkAux mark pending t) := by
  intro t
  induction t with
  | nil =>
    intro pending hp
    show List.Chain' _ pending.reverse
    exact chain'_of_all_ws mark hm _ (fun x hx => hp x (by simpa using hx))
  | cons c t ih =>
    intro pending hp
    unfold rmWsBeforeMarkAux
    by_cases hws : jsIsSpace c = true
    · rw [if_pos hws]
      refine ih (c :: pending) ?_
      intro x hx
      rcases List.mem_cons.mp hx with h1 | h1
      · rw [h1]; exact hws
      · exact hp x h1
    · rw [if_neg hws]
      by_cases hmk : c = mark
      · rw [if_pos hmk]
        refine List.chain'_cons'.mpr ⟨?_, ih [] (by simp)⟩
        intro y _ hcon
        simp [hm] at hcon
      · rw [if_neg hmk]
        rw [List.chain'_append]
        refine ⟨chain'_of_all_ws mark hm _ (fun x hx => hp x (by simpa using hx)), ?_, ?_⟩
        · refine List.chain'_cons'.mpr ⟨?_, ih [] (by simp)⟩
          intro y _ hcon
          exact absurd hcon.1 (by simp [hws])
        · intro x _ y hy hcon
          have hyc : y = c := (by simpa using hy : c = y).symm
          exact hmk (hyc ▸ hcon.2)

theorem rmWsAfterOpenAux_false_head (mark : Char) (t : List Char) :
    (rmWsAfterOpenAux mark false t).head? = t.head? := by
  cases t with
  | nil => rfl
  | cons c t =>
    unfold rmWsAfterOpenAux
    rw [if_neg (by simp)]
    by_cases hm : c = mark
    · rw [if_pos hm]
      simp [hm]
    · rw [if_neg hm]
      rfl

theorem rmWsAfterOpenAux_true_head (mark : Char) (hm : jsIsSpace mark = false) :
    ∀ (t : List Char) (d : Char),
      (rmWsAfterOpenAux mark true t).head? = some d → jsIsSpace d = false := by
  intro t
  induction t with
  | nil => intro d h; cases h
  | cons c t ih =>
    intro d h
    unfold rmWsAfterOpenAux at h
    by_cases hws : jsIsSpace c = true
    · rw [if_pos ⟨rfl, hws⟩] at h
      exact ih d h
    · rw [if_neg (by simp [hws])] at h
      by_cases hmk : c = mark
      · rw [if_pos hmk] at h
        cases h
        exact hm
      · rw [if_neg hmk] at h
        cases h
        simpa using hws

theorem rmWsAfterOpenAux_estab (mark : Char) (hm : jsIsSpace mark = false) :
    ∀ (t : List Char) (b : Bool),
      List.Chain' (fun a b => ¬(a = mark ∧ jsIsSpace b = true))
        (rmWsAfterOpenAux mark b t) := by
  intro t
  induction t with
  | nil => intro b; cases b <;> trivial
  | cons c t ih =>
    intro b
    unfold rmWsAfterOpenAux
    by_cases hsk : b = true ∧ jsIsSpace c = true
    · rw [if_pos hsk]
      exact ih true
    · rw [if_neg hsk]
      by_cases hmk : c = mark
      · rw [if_pos hmk]
        refine List.chain'_cons'.mpr ⟨?_, ih true⟩
        intro y hy hcon
        have := rmWsAfterOpenAux_true_head mark hm t y hy
        rw [this] at hcon
        cases hcon.2
      · rw [if_neg hmk]
        refine List.chain'_cons'.mpr ⟨?_, ih false⟩
        intro y _ hcon
        exact hmk hcon.1

/-! Preservation lemmas: later steps keep earlier normal forms.  The three
whitespace-deletion shapes only remove whitespace characters and only create
new adjacencies whose two sides are both non-whitespace. -/

theorem rmWsAfterMarkAux_sublist (mark : Char) :
    ∀ (t : List Char) (b : Bool) (prev : Option Char),
      List.Sublist (rmWsAfterMarkAux mark b prev t) t := by
  intro t
  induction t with
  | nil => intro b prev; cases b <;> exact List.Sublist.refl _
  | cons c t ih =>
    intro b prev
    unfold rmWsAfterMarkAux
    by_cases hsk : b = true ∧ jsIsSpace c = true
    · rw [if_pos hsk]
      exact (ih true (some c)).trans (List.sublist_cons_self c t)
    · rw [if_neg hsk]
      by_cases hmk : c = mark ∧ prev ≠ some '"'
      · rw [if_pos hmk, hmk.1]
        exact (ih true (some mark)).cons₂ mark
      · rw [if_neg hmk]
        exact (ih false (some c)).cons₂ c

theorem rmWsBeforeMarkAux_sublist (mark : Char) :
    ∀ (t pending : List Char),
      List.Sublist (rmWsBeforeMarkAux mark pending t) (pending.reverse ++ t) := by
  intro t
  induction t with
  | nil => intro pending; simp [rmWsBeforeMarkAux]
  | cons c t ih =>
    intro pending
    unfold rmWsBeforeMarkAux
    by_cases hws : jsIsSpace c = true
    · rw [if_pos hws]
      have h1 := ih (c :: pending)
      simp only [List.reverse_cons, List.append_assoc, List.singleton_append] at h1
      exact h1
    · rw [if_neg hws]
      by_cases hmk : c = mark
      · rw [if_pos hmk, hmk]
        have h0 := ih []
        simp only [List.reverse_nil, List.nil_append] at h0
        exact (h0.cons₂ mark).trans (List.sublist_append_right pending.reverse (mark :: t))
      · rw [if_neg hmk]
        have h0 := ih []
        simp only [List.reverse_nil, List.nil_append] at h0
        exact (h0.cons₂ c).append_left pending.reverse

theorem rmWsAfterOpenAux_sublist (mark : Char) :
    ∀ (t : List Char) (b : Bool), List.Sublist (rmWsAfterOpenAux mark b t) t := by
  intro t
  induction t with
  | nil => intro b; cases b <;> exact List.Sublist.refl _
  | cons c t ih =>
    intro b
    unfold rmWsAfterOpenAux
    by_cases hsk : b = true ∧ jsIsSpace c = true
    · rw [if_pos hsk]
      exact (ih true).trans (List.sublist_cons_self c t)
    · rw [if_neg hsk]
      by_cases hmk : c = mark
      · rw [if_pos hmk, hmk]
        exact (ih true).cons₂ mark
      · rw [if_neg hmk]
        exact (ih false).cons₂ c

theorem rmWsAfterMarkAux_chain_pres (mark : Char) (hmws : jsIsSpace mark = false)
    (Q : Char → Char → Prop)
    (hQ : ∀ a b, jsIsSpace a = false → jsIsSpace b = false → Q a b) :
    ∀ (t : List Char) (b : Bool) (prev : Option Char),
      List.Chain' Q t → List.Chain' Q (rmWsAfterMarkAux mark b prev t) := by
  intro t
  induction t with
  | nil => intro b prev _; cases b <;> trivial
  | cons c t ih =>
    intro b prev hch
    unfold rmWsAfterMarkAux
    by_cases hsk : b = true ∧ jsIsSpace c = true
    · rw [if_pos hsk]
      exact ih true (some c) hch.tail
    · rw [if_neg hsk]
      by_cases hmk : c = mark ∧ prev ≠ some '"'
      · rw [if_pos hmk]
        refine List.chain'_cons'.mpr ⟨?_, ih true (some c) hch.tail⟩
        intro y hy
        exact hQ mark y hmws (rmWsAfterMarkAux_true_head mark hmws t (some c) y hy)
      · rw [if_neg hmk]
        refine List.chain'_cons'.mpr ⟨?_, ih false (some c) hch.tail⟩
        intro y hy
        rw [rmWsAfterMarkAux_false_head] at hy
        exact (List.chain'_cons'.mp hch).1 y hy

theorem rmWsAfterOpenAux_chain_pres (mark : Char) (hmws : jsIsSpace mark = false)
    (Q : Char → Char → Prop)
    (hQ : ∀ a b, jsIsSpace a = false → jsIsSpace b = false → Q a b) :
    ∀ (t : List Char) (b : Bool),
      List.Chain' Q t → List.Chain' Q (rmWsAfterOpenAux mark b t) := by
  intro t
  induction t with
  | nil => intro b _; cases b <;> trivial
  | cons c t ih =>
    intro b hch
    unfold rmWsAfterOpenAux
    by_cases hsk : b = true ∧ jsIsSpace c = true
    · rw [if_pos hsk]
      exact ih true hch.tail
    · rw [if_neg hsk]
      by_cases hmk : c = mark
      · rw [if_pos hmk]
        refine List.chain'_cons'.mpr ⟨?_, ih true hch.tail⟩
        intro y hy
        exact hQ mark y hmws (rmWsAfterOpenAux_true_head mark hmws t y hy)
      · rw [if_neg hmk]
        refine List.chain'_cons'.mpr ⟨?_, ih false hch.tail⟩
        intro y hy
        rw [rmWsAfterOpenAux_false_head] at hy
        exact (List.chain'_cons'.mp hch).1 y hy

theorem rmWsBeforeMarkAux_head (mark : Char) :
    ∀ (t pending : List Char) (d : Char),
      (rmWsBeforeMarkAux mark pending t).head? = some d →
      (pending.reverse ++ t).head? = some d ∨ d = mark := by
  intro t
  induction t with
  | nil =>
    intro pending d h
    left
    have h' : pending.reverse.head? = some d := h
    simpa using h'
  | cons c t ih =>
    intro pending d h
    unfold rmWsBeforeMarkAux at h
    by_cases hws : jsIsSpace c = true
    · rw [if_pos hws] at h
      rcases ih (c :: pending) d h with h1 | h1
      · left
        rw [List.head?_append] at h1 ⊢
        simpa [List.reverse_cons] using h1
      · exact Or.inr h1
    · rw [if_neg hws] at h
      by_cases hmk : c = mark
      · rw [if_pos hmk] at h
        right
        exact (Option.some_inj.mp h).symm
      · rw [if_neg hmk] at h
        left
        rw [List.head?_append] at h ⊢
        simpa using h

theorem rmWsBeforeMarkAux_nonempty (mark : Char) :
    ∀ (t pending : List Char), rmWsBeforeMarkAux mark pending t = [] →
      pending = [] ∧ t = [] := by
  intro t
  induction t with
  | nil =>
    intro pending h
    refine ⟨?_, rfl⟩
    have : pending.reverse = [] := h
    simpa using this
  | cons c t ih =>
    intro pending h
    unfold rmWsBeforeMarkAux at h
    by_cases hws : jsIsSpace c = true
    · rw [if_pos hws] at h
      exact absurd (ih (c :: pending) h).1 (by simp)
    · rw [if_neg hws] at h
      by_cases hmk : c = mark
      · rw [if_pos hmk] at h
        cases h
      · rw [if_neg hmk] at h
        rcases List.append_eq_nil.mp h with ⟨_, h2⟩
        cases h2

theorem rmWsBeforeMarkAux_chain_pres (mark : Char) (hmws : jsIsSpace mark = false)
    (Q : Char → Char → Prop)
    (hQ : ∀ a b, jsIsSpace a = false → jsIsSpace b = false → Q a b) :
    ∀ (t pending : List Char),
      (∀ x ∈ pending, jsIsSpace x = true) →
      List.Chain' Q (pending.reverse ++ t) →
      List.Chain' Q (rmWsBeforeMarkAux mark pending t) := by
  intro t
  induction t with
  | nil =>
    intro pending _ hch
    show List.Chain' Q pending.reverse
    simpa using hch
  | cons c t ih =>
    intro pending hp hch
    unfold rmWsBeforeMarkAux
    by_cases hws : jsIsSpace c = true
    · rw [if_pos hws]
      refine ih (c :: pending) ?_ ?_
      · intro x hx
        rcases List.mem_cons.mp hx with h1 | h1
        · rw [h1]; exact hws
        · exact hp x h1
      · simpa [List.reverse_cons, List.append_assoc] using hch
    · rw [if_neg hws]
      have hsuffix : List.Chain' Q (c :: t) :=
        hch.suffix (List.suffix_append pending.reverse (c :: t))
      by_cases hmk : c = mark
      · rw [if_pos hmk]
        refine List.chain'_cons'.mpr ⟨?_, ih [] (by simp) (by simpa using hsuffix.tail)⟩
        intro y hy
        rcases rmWsBeforeMarkAux_head mark t [] y (by simpa using hy) with h1 | h1
        · rw [List.reverse_nil, List.nil_append] at h1
          rw [← hmk]
          exact (List.chain'_cons'.mp hsuffix).1 y h1
        · rw [h1]
          exact hQ mark mark hmws hmws
      · rw [if_neg hmk]
        rw [List.chain'_append]
        have hpre : List.Chain' Q pending.reverse := by
          rw [← List.take_left pending.reverse (c :: t)]
          exact hch.take _
        refine ⟨hpre, ?_, ?_⟩
        · refine List.chain'_cons'.mpr ⟨?_, ih [] (by simp) (by simpa using hsuffix.tail)⟩
          intro y hy
          rcases rmWsBeforeMarkAux_head mark t [] y (by simpa using hy) with h1 | h1
          · rw [List.reverse_nil, List.nil_append] at h1
            exact (List.chain'_cons'.mp hsuffix).1 y h1
          · rw [h1]
            exact hQ c mark (by simpa using hws) hmws
        · intro x hx y hy
          have hyc : c = y := by simpa using hy
          subst hyc
          have := (List.chain'_append.mp hch).2.2 x hx c (by simp)
          simpa using this

theorem nwam_of_all_ws (mark : Char) (hm : jsIsSpace mark = false) :
    ∀ (l : List Char), (∀ x ∈ l, jsIsSpace x = true) →
      ∀ q : Option Char, NoWsAfterMark mark q l := by
  intro l
  induction l with
  | nil => intro _ q; trivial
  | cons c t ih =>
    intro h q
    refine ⟨?_, ih (fun x hx => h x (List.mem_cons_of_mem c hx)) (some c)⟩
    intro hc
    exact absurd (h c (List.mem_cons_self c t)) (by rw [hc, hm]; simp)

theorem nwam_ws_append (mark : Char) (hm : jsIsSpace mark = false) :
    ∀ (l : List Char), (∀ x ∈ l, jsIsSpace x = true) →
      ∀ (t : List Char), (∀ q : Option Char, NoWsAfterMark mark q t) →
      ∀ q : Option Char, NoWsAfterMark mark q (l ++ t) := by
  intro l
  induction l with
  | nil => intro _ t ht q; exact ht q
  | cons c l ih =>
    intro h t ht q
    refine ⟨?_, ih (fun x hx => h x (List.mem_cons_of_mem c hx)) t ht (some c)⟩
    intro hc
    exact absurd (h c (List.mem_cons_self c l)) (by rw [hc, hm]; simp)

theorem rmWsAfterMarkAux_nwam_pres (mark mark2 : Char) (hm2 : jsIsSpace mark2 = false) :
    ∀ (t : List Char) (b : Bool) (pIn pOut : Option Char),
      (pIn = some '"' → pOut = some '"') →
      NoWsAfterMark mark pIn t →
      NoWsAfterMark mark pOut (rmWsAfterMarkAux mark2 b pIn t) := by
  intro t
  induction t with
  | nil => intro b pIn pOut _ _; cases b <;> trivial
  | cons c t ih =>
    intro b pIn pOut hpq hnf
    unfold rmWsAfterMarkAux
    by_cases hsk : b = true ∧ jsIsSpace c = true
    · rw [if_pos hsk]
      refine ih true (some c) pOut ?_ hnf.2
      intro hc
      exact absurd hsk.2 (by rw [Option.some_inj.mp hc]; decide)
    · rw [if_neg hsk]
      by_cases hmk : c = mark2 ∧ pIn ≠ some '"'
      · rw [if_pos hmk]
        refine ⟨?_, ?_⟩
        · intro _ _ d hd
          exact rmWsAfterMarkAux_true_head mark2 hm2 t (some c) d hd
        · refine ih true (some c) (some mark2) ?_ hnf.2
          intro hc
          rw [hmk.1] at hc
          exact hc
      · rw [if_neg hmk]
        refine ⟨?_, ih false (some c) (some c) (fun h => h) hnf.2⟩
        intro hc hq d hd
        rw [rmWsAfterMarkAux_false_head] at hd
        exact hnf.1 hc (fun hp => hq (hpq hp)) d hd

theorem rmWsAfterOpenAux_nwam_pres (mark mark2 : Char) (hm2 : jsIsSpace mark2 = false) :
    ∀ (t : List Char) (b : Bool) (pIn pOut : Option Char),
      (pIn = some '"' → pOut = some '"') →
      NoWsAfterMark mark pIn t →
      NoWsAfterMark mark pOut (rmWsAfterOpenAux mark2 b t) := by
  intro t
  induction t with
  | nil => intro b pIn pOut _ _; cases b <;> trivial
  | cons c t ih =>
    intro b pIn pOut hpq hnf
    unfold rmWsAfterOpenAux
    by_cases hsk : b = true ∧ jsIsSpace c = true
    · rw [if_pos hsk]
      refine ih true (some c) pOut ?_ hnf.2
      intro hc
      exact absurd hsk.2 (by rw [Option.some_inj.mp hc]; decide)
    · rw [if_neg hsk]
      by_cases hmk : c = mark2
      · rw [if_pos hmk]
        refine ⟨?_, ?_⟩
        · intro _ _ d hd
          exact rmWsAfterOpenAux_true_head mark2 hm2 t d hd
        · refine ih true (some c) (some mark2) ?_ hnf.2
          intro hc
          rw [hmk] at hc
          exact hc
      · rw [if_neg hmk]
        refine ⟨?_, ih false (some c) (some c) (fun h => h) hnf.2⟩
        intro hc hq d hd
        rw [rmWsAfterOpenAux_false_head] at hd
        exact hnf.1 hc (fun hp => hq (hpq hp)) d hd

theorem rmWsBeforeMarkAux_nwam_pres (mark mark2 : Char) (hm : jsIsSpace mark = false)
    (hm2 : jsIsSpace mark2 = false) :
    ∀ (t pending : List Char) (pIn pOut : Option Char),
      (∀ x ∈ pending, jsIsSpace x = true) →
      (pIn = some '"' → pending = [] ∧ pOut = some '"') →
      NoWsAfterMark mark pIn t →
      NoWsAfterMark mark pOut (rmWsBeforeMarkAux mark2 pending t) := by
  intro t
  induction t with
  | nil =>
    intro pending pIn pOut hp _ _
    show NoWsAfterMark mark pOut pending.reverse
    exact nwam_of_all_ws mark hm pending.reverse
      (fun x hx => hp x (List.mem_reverse.mp hx)) pOut
  | cons c t ih =>
    intro pending pIn pOut hp hpq hnf
    unfold rmWsBeforeMarkAux
    by_cases hws : jsIsSpace c = true
    · rw [if_pos hws]
      refine ih (c :: pending) (some c) pOut ?_ ?_ hnf.2
      · intro x hx
        rcases List.mem_cons.mp hx with h1 | h1
        · rw [h1]; exact hws
        · exact hp x h1
      · intro hc
        exact absurd hws (by rw [Option.some_inj.mp hc]; decide)
    · rw [if_neg hws]
      by_cases hmk : c = mark2
      · rw [if_pos hmk]
        refine ⟨?_, ih [] (some c) (some mark2) (by simp) ?_ hnf.2⟩
        · intro hcm hq d hd
          rcases rmWsBeforeMarkAux_head mark2 t [] d hd with h1 | h1
          · rw [List.reverse_nil, List.nil_append] at h1
            exact hnf.1 (hmk.trans hcm) (fun hp' => hq (hpq hp').2) d h1
          · rw [h1]; exact hm2
        · intro hc
          exact ⟨rfl, by rw [← hmk]; exact hc⟩
      · rw [if_neg hmk]
        by_cases hpe : pending = []
        · subst hpe
          simp only [List.reverse_nil, List.nil_append]
          refine ⟨?_, ih [] (some c) (some c) (by simp) (fun h => ⟨rfl, h⟩) hnf.2⟩
          intro hcm hq d hd
          rcases rmWsBeforeMarkAux_head mark2 t [] d hd with h1 | h1
          · rw [List.reverse_nil, List.nil_append] at h1
            exact hnf.1 hcm (fun hp' => hq (hpq hp').2) d h1
          · rw [h1]; exact hm2
        · have hpin : pIn ≠ some '"' := fun h => hpe (hpq h).1
          refine nwam_ws_append mark hm pending.reverse
            (fun x hx => hp x (List.mem_reverse.mp hx)) _ ?_ pOut
          intro q
          refine ⟨?_, ih [] (some c) (some c) (by simp) (fun h => ⟨rfl, h⟩) hnf.2⟩
          intro hcm _ d hd
          rcases rmWsBeforeMarkAux_head mark2 t [] d hd with h1 | h1
          · rw [List.reverse_nil, List.nil_append] at h1
            exact hnf.1 hcm hpin d h1
          · rw [h1]; exact hm2

/-! Head, last-element and membership preservation: the deletion steps never
remove a non-whitespace character, so the `BraceOK` normal form survives. -/

theorem getLast?_append_some (l l' : List Char) (c : Char)
    (h : l'.getLast? = some c) : (l ++ l').getLast? = some c := by
  rw [List.getLast?_eq_head?_reverse] at h ⊢
  rw [List.reverse_append, List.head?_append, h]
  rfl

theorem getLast?_cons_some (a c : Char) (l : List Char)
    (h : l.getLast? = some c) : (a :: l).getLast? = some c := by
  have := getLast?_append_some [a] l c h
  simpa using this

theorem collapseRunsAux_mem_of (p : Char → Bool) (rep : Char) :
    ∀ (l : List Char) (b : Bool) (c : Char),
      c ∈ collapseRunsAux p rep b l → c = rep ∨ c ∈ l := by
  intro l
  induction l with
  | nil => intro b c hc; cases b <;> cases hc
  | cons d t ih =>
    intro b c hc
    unfold collapseRunsAux at hc
    by_cases hd : p d = true
    · rw [if_pos hd] at hc
      cases b with
      | true =>
        rw [if_pos rfl] at hc
        rcases ih true c hc with h | h
        · exact Or.inl h
        · exact Or.inr (List.mem_cons_of_mem d h)
      | false =>
        rw [if_neg (by simp)] at hc
        rcases List.mem_cons.mp hc with h | h
        · exact Or.inl h
        · rcases ih true c h with h' | h'
          · exact Or.inl h'
          · exact Or.inr (List.mem_cons_of_mem d h')
    · rw [if_neg hd] at hc
      rcases List.mem_cons.mp hc with h | h
      · exact Or.inr (h ▸ List.mem_cons_self d t)
      · rcases ih false c h with h' | h'
        · exact Or.inl h'
        · exact Or.inr (List.mem_cons_of_mem d h')

theorem collapseRunsAux_head_nonp (p : Char → Bool) (rep : Char) (c : Char)
    (t : List Char) (hc : p c = false) (b : Bool) :
    (collapseRunsAux p rep b (c :: t)).head? = some c := by
  unfold collapseRunsAux
  rw [if_neg (by simp [hc])]
  rfl

theorem collapseRunsAux_getLast (p : Char → Bool) (rep : Char) :
    ∀ (t : List Char) (b : Bool) (c : Char),
      t.getLast? = some c → p c = false →
      (collapseRunsAux p rep b t).getLast? = some c := by
  intro t
  induction t with
  | nil => intro b c h _; cases h
  | cons d t ih =>
    intro b c h hc
    cases t with
    | nil =>
      have hdc : d = c := by simpa using h
      subst hdc
      unfold collapseRunsAux
      rw [if_neg (by simp [hc])]
      rfl
    | cons e t' =>
      rw [List.getLast?_cons_cons] at h
      unfold collapseRunsAux
      by_cases hd : p d = true
      · rw [if_pos hd]
        cases b with
        | true => rw [if_pos rfl]; exact ih true c h hc
        | false =>
          rw [if_neg (by simp)]
          exact getLast?_cons_some rep c _ (ih true c h hc)
      · rw [if_neg hd]
        exact getLast?_cons_some d c _ (ih false c h hc)

theorem rmWsAfterMarkAux_getLast (mark : Char) :
    ∀ (t : List Char) (b : Bool) (prev : Option Char) (c : Char),
      t.getLast? = some c → jsIsSpace c = false →
      (rmWsAfterMarkAux mark b prev t).getLast? = some c := by
  intro t
  induction t with
  | nil => intro b prev c h _; cases h
  | cons d t ih =>
    intro b prev c h hc
    cases t with
    | nil =>
      have hdc : d = c := by simpa using h
      subst hdc
      unfold rmWsAfterMarkAux
      rw [if_neg (by simp [hc])]
      by_cases hm : d = mark ∧ prev ≠ some '"'
      · rw [if_pos hm, hm.1]; rfl
      · rw [if_neg hm]; rfl
    | cons e t' =>
      rw [List.getLast?_cons_cons] at h
      unfold rmWsAfterMarkAux
      by_cases hsk : b = true ∧ jsIsSpace d = true
      · rw [if_pos hsk]
        exact ih true (some d) c h hc
      · rw [if_neg hsk]
        by_cases hm : d = mark ∧ prev ≠ some '"'
        · rw [if_pos hm]
          exact getLast?_cons_some mark c _ (ih true (some d) c h hc)
        · rw [if_neg hm]
          exact getLast?_cons_some d c _ (ih false (some d) c h hc)

theorem rmWsAfterOpenAux_getLast (mark : Char) :
    ∀ (t : List Char) (b : Bool) (c : Char),
      t.getLast? = some c → jsIsSpace c = false →
      (rmWsAfterOpenAux mark b t).getLast? = some c := by
  intro t
  induction t with
  | nil => intro b c h _; cases h
  | cons d t ih =>
    intro b c h hc
    cases t with
    | nil =>
      have hdc : d = c := by simpa using h
      subst hdc
      unfold rmWsAfterOpenAux
      rw [if_neg (by simp [hc])]
      by_cases hm : d = mark
      · rw [if_pos hm, hm]; rfl
      · rw [if_neg hm]; rfl
    | cons e t' =>
      rw [List.getLast?_cons_cons] at h
      unfold rmWsAfterOpenAux
      by_cases hsk : b = true ∧ jsIsSpace d = true
      · rw [if_pos hsk]
        exact ih true c h hc
      · rw [if_neg hsk]
        by_cases hm : d = mark
        · rw [if_pos hm]
          exact getLast?_cons_some mark c _ (ih true c h hc)
        · rw [if_neg hm]
          exact getLast?_cons_some d c _ (ih false c h hc)

theorem rmWsBeforeMarkAux_getLast (mark : Char) :
    ∀ (t pending : List Char) (c : Char),
      t.getLast? = some c → jsIsSpace c = false →
      (rmWsBeforeMarkAux mark pending t).getLast? = some c := by
  intro t
  induction t with
  | nil => intro pending c h _; cases h
  | cons d t ih =>
    intro pending c h hc
    cases t with
    | nil =>
      have hdc : d = c := by simpa using h
      subst hdc
      unfold rmWsBeforeMarkAux
      rw [if_neg (by simp [hc])]
      by_cases hm : d = mark
      · rw [if_pos hm, hm]
        show (mark :: rmWsBeforeMarkAux mark [] []).getLast? = some mark
        rfl
      · rw [if_neg hm]
        show (pending.reverse ++ d :: rmWsBeforeMarkAux mark [] []).getLast? = some d
        exact getLast?_append_some pending.reverse [d] d rfl
    | cons e t' =>
      rw [List.getLast?_cons_cons] at h
      unfold rmWsBeforeMarkAux
      by_cases hws : jsIsSpace d = true
      · rw [if_pos hws]
        exact ih (d :: pending) c h hc
      · rw [if_neg hws]
        by_cases hm : d = mark
        · rw [if_pos hm]
          exact getLast?_cons_some mark c _ (ih [] c h hc)
        · rw [if_neg hm]
          exact getLast?_append_some pending.reverse _ c
            (getLast?_cons_some d c _ (ih [] c h hc))

theorem rmWsBeforeMarkAux_head_nonws (mark : Char) (c : Char) (t : List Char)
    (hc : jsIsSpace c = false) :
    (rmWsBeforeMarkAux mark [] (c :: t)).head? = some c := by
  unfold rmWsBeforeMarkAux
  rw [if_neg (by simp [hc])]
  by_cases hm : c = mark
  · rw [if_pos hm, hm]; rfl
  · rw [if_neg hm]; rfl

/-! The two boolean-literal rewrites change characters only from `T` to `t`
and from `F` to `f`.  `chg` is that per-character relation; the pipeline's
normal forms are invariant under it. -/

/-- A character of the output of a boolean-literal rewrite against the
corresponding input character. -/
def chg (o d : Char) : Prop :=
  o = d ∨ (o = 'T' ∧ d = 't') ∨ (o = 'F' ∧ d = 'f')

theorem chg_refl (c : Char) : chg c c := Or.inl rfl

theorem chg_forall₂_refl : ∀ l : List Char, List.Forall₂ chg l l := by
  intro l
  induction l with
  | nil => exact List.Forall₂.nil
  | cons c t ih => exact List.Forall₂.cons (chg_refl c) ih

theorem chg_forall₂_append {l₁ l₂ u₁ u₂ : List Char}
    (h : List.Forall₂ chg l₁ l₂) (h' : List.Forall₂ chg u₁ u₂) :
    List.Forall₂ chg (l₁ ++ u₁) (l₂ ++ u₂) := by
  induction h with
  | nil => exact h'
  | cons hc _ ih => exact List.Forall₂.cons hc ih

theorem chg_ws (o d : Char) (h : chg o d) : jsIsSpace o = jsIsSpace d := by
  rcases h with h | ⟨h1, h2⟩ | ⟨h1, h2⟩
  · rw [h]
  · rw [h1, h2]; decide
  · rw [h1, h2]; decide

theorem chg_back (o d c : Char) (h : chg o d) (hd : d = c)
    (hc1 : c ≠ 't') (hc2 : c ≠ 'f') : o = c := by
  rcases h with h | ⟨h1, h2⟩ | ⟨h1, h2⟩
  · rw [h, hd]
  · exact absurd (h2.symm.trans hd).symm hc1
  · exact absurd (h2.symm.trans hd).symm hc2

theorem chg_fwd (o d c : Char) (h : chg o d) (ho : o = c)
    (hc1 : c ≠ 'T') (hc2 : c ≠ 'F') : d = c := by
  rcases h with h | ⟨h1, h2⟩ | ⟨h1, h2⟩
  · rw [← h, ho]
  · exact absurd (h1.symm.trans ho).symm hc1
  · exact absurd (h1.symm.trans ho).symm hc2

theorem chg_quote_iff (o d : Char) (h : chg o d) : o = '"' ↔ d = '"' :=
  ⟨fun ho => chg_fwd o d '"' h ho (by decide) (by decide),
   fun hd => chg_back o d '"' h hd (by decide) (by decide)⟩

theorem chg_forall₂_head {t out : List Char} (hf : List.Forall₂ chg t out)
    (e : Char) (he : out.head? = some e) :
    ∃ e', t.head? = some e' ∧ chg e' e := by
  cases hf with
  | nil => cases he
  | cons hc _ =>
    exact ⟨_, rfl, (Option.some_inj.mp he) ▸ hc⟩

/-- A literal replacement relates its output to its input pointwise by `chg`
whenever pattern and replacement are so related. -/
theorem replaceLitAux_chg (pat rep : List Char) (hpr : List.Forall₂ chg pat rep) :
    ∀ (fuel : Nat) (t : List Char), List.Forall₂ chg t (replaceLitAux pat rep fuel t) := by
  intro fuel
  induction fuel with
  | zero => intro t; exact chg_forall₂_refl t
  | succ fuel ih =>
    intro t
    cases t with
    | nil => exact List.Forall₂.nil
    | cons c t =>
      unfold replaceLitAux
      by_cases hp : List.isPrefixOf pat (c :: t) = true
      · rw [if_pos hp]
        rcases List.isPrefixOf_iff_prefix.mp hp with ⟨s', hs'⟩
        have hdrop : (c :: t).drop pat.length = s' := by
          rw [← hs']
          exact List.drop_left pat s'
        rw [hdrop, ← hs']
        exact chg_forall₂_append hpr (ih s')
      · rw [if_neg hp]
        exact List.Forall₂.cons (chg_refl c) (ih t)

theorem replaceLit_chg (pat rep t : List Char) (hpr : List.Forall₂ chg pat rep) :
    List.Forall₂ chg t (replaceLit pat rep t) :=
  replaceLitAux_chg pat rep hpr t.length t

/-- A pattern containing no lowercase `t` or `f` that prefixes the output of
a `chg`-related rewrite already prefixes the input. -/
theorem chg_prefix_back :
    ∀ (t out : List Char), List.Forall₂ chg t out →
      ∀ pat : List Char, 't' ∉ pat → 'f' ∉ pat → pat <+: out → pat <+: t := by
  intro t out hf
  induction hf with
  | nil => intro pat _ _ hp; exact hp
  | @cons o d t' out' hcd hf ih =>
    intro pat h1 h2 hp
    cases pat with
    | nil => exact List.nil_prefix
    | cons p ps =>
      rcases List.cons_prefix_cons.mp hp with ⟨hpd, hps⟩
      have hop : o = p :=
        chg_back o d p hcd hpd.symm
          (fun hc => h1 (by rw [← hc]; exact List.mem_cons_self p ps))
          (fun hc => h2 (by rw [← hc]; exact List.mem_cons_self p ps))
      rw [← hop]
      exact List.cons_prefix_cons.mpr
        ⟨rfl, ih ps (fun hm => h1 (List.mem_cons_of_mem p hm))
          (fun hm => h2 (List.mem_cons_of_mem p hm)) hps⟩

/-- `NoOcc` of a `t`/`f`-free pattern is invariant under `chg`-related
rewriting. -/
theorem noOcc_of_chg (pat t out : List Char) (h1 : 't' ∉ pat) (h2 : 'f' ∉ pat)
    (hf : List.Forall₂ chg t out) (hno : NoOcc pat t) : NoOcc pat out := by
  intro n hocc
  have hfd : List.Forall₂ chg (t.drop n) (out.drop n) := List.forall₂_drop n hf
  have hpre : pat <+: out.drop n := List.isPrefixOf_iff_prefix.mp hocc
  exact hno n (List.isPrefixOf_iff_prefix.mpr
    (chg_prefix_back _ _ hfd pat h1 h2 hpre))

theorem chg_forall₂_mem {t out : List Char} (hf : List.Forall₂ chg t out) :
    ∀ d ∈ out, ∃ o ∈ t, chg o d := by
  induction hf with
  | nil => intro d hd; cases hd
  | @cons o e t' out' hce hf ih =>
    intro d hd
    rcases List.mem_cons.mp hd with h | h
    · exact ⟨o, List.mem_cons_self o t', by rw [h]; exact hce⟩
    · rcases ih d h with ⟨o', ho', hc⟩
      exact ⟨o', List.mem_cons_of_mem o ho', hc⟩

theorem chg_forall₂_head_fwd {t out : List Char} (hf : List.Forall₂ chg t out)
    (e : Char) (he : t.head? = some e) :
    ∃ e', out.head? = some e' ∧ chg e e' := by
  cases hf with
  | nil => cases he
  | cons hc _ =>
    exact ⟨_, rfl, (Option.some_inj.mp he) ▸ hc⟩

theorem chain'_of_chg (Q : Char → Char → Prop)
    (hQ : ∀ a b a' b', chg a a' → chg b b' → Q a b → Q a' b') :
    ∀ (t out : List Char), List.Forall₂ chg t out →
      List.Chain' Q t → List.Chain' Q out := by
  intro t out hf
  induction hf with
  | nil => intro _; trivial
  | @cons o d t' out' hcd hf ih =>
    intro hch
    refine List.chain'_cons'.mpr ⟨?_, ih hch.tail⟩
    intro y hy
    rcases chg_forall₂_head hf y hy with ⟨y', hy', hcy⟩
    exact hQ o y' d y hcd hcy ((List.chain'_cons'.mp hch).1 y' hy')

theorem wsNormal_of_chg (t out : List Char) (hf : List.Forall₂ chg t out)
    (h : WsNormal t) : WsNormal out := by
  constructor
  · intro d hd hw
    rcases chg_forall₂_mem hf d hd with ⟨o, ho, hc⟩
    have hwo : jsIsSpace o = true := by rw [chg_ws o d hc]; exact hw
    exact chg_fwd o d ' ' hc (h.1 o ho hwo) (by decide) (by decide)
  · refine chain'_of_chg _ ?_ t out hf h.2
    intro a b a' b' ha hb hq hcon
    exact hq ⟨by rw [chg_ws a a' ha]; exact hcon.1,
      by rw [chg_ws b b' hb]; exact hcon.2⟩

theorem nwam_of_chg (mark : Char) (hmt : mark ≠ 't') (hmf : mark ≠ 'f') :
    ∀ (t out : List Char), List.Forall₂ chg t out →
      ∀ (p q : Option Char), (p = some '"' ↔ q = some '"') →
      NoWsAfterMark mark p t → NoWsAfterMark mark q out := by
  intro t out hf
  induction hf with
  | nil => intro p q _ _; trivial
  | @cons o d t' out' hcd hf ih =>
    intro p q hpq hnf
    refine ⟨?_, ih (some o) (some d) ?_ hnf.2⟩
    · intro hdm hq e he
      rcases chg_forall₂_head hf e he with ⟨e', he', hce⟩
      have hom : o = mark := chg_back o d mark hcd hdm hmt hmf
      have hws' := hnf.1 hom (fun hp => hq (hpq.mp hp)) e' he'
      rw [← chg_ws e' e hce]
      exact hws'
    · constructor
      · intro hp
        exact Option.some_inj.mpr ((chg_quote_iff o d hcd).mp (Option.some_inj.mp hp))
      · intro hq
        exact Option.some_inj.mpr ((chg_quote_iff o d hcd).mpr (Option.some_inj.mp hq))

theorem braceOK_of_chg (t out : List Char) (hf : List.Forall₂ chg t out)
    (h : BraceOK t) : BraceOK out := by
  rcases h with h | h | h
  · left
    intro hm
    rcases chg_forall₂_mem hf '{' hm with ⟨o, ho, hc⟩
    have ho' : o = '{' := chg_back o '{' '{' hc rfl (by decide) (by decide)
    exact h (by rw [← ho']; exact ho)
  · right; left
    intro hm
    rcases chg_forall₂_mem hf '}' hm with ⟨o, ho, hc⟩
    have ho' : o = '}' := chg_back o '}' '}' hc rfl (by decide) (by decide)
    exact h (by rw [← ho']; exact ho)
  · right; right
    constructor
    · rcases chg_forall₂_head_fwd hf '{' h.1 with ⟨e', he', hc⟩
      have he'' : e' = '{' := chg_fwd '{' e' '{' hc rfl (by decide) (by decide)
      rw [he', he'']
    · have hrev : List.Forall₂ chg t.reverse out.reverse :=
        List.forall₂_reverse_iff.mpr hf
      have h2 : t.reverse.head? = some '}' := by
        rw [← List.getLast?_eq_head?_reverse]
        exact h.2
      rw [List.getLast?_eq_head?_reverse]
      rcases chg_forall₂_head_fwd hrev '}' h2 with ⟨e', he', hc⟩
      have he'' : e' = '}' := chg_fwd '}' e' '}' hc rfl (by decide) (by decide)
      rw [he', he'']

theorem prefix_head_eq {l₁ l₂ : List Char} (h : l₁ <+: l₂) (c : Char)
    (hc : l₁.head? = some c) : l₂.head? = some c := by
  rcases h with ⟨s', rfl⟩
  rw [List.head?_append, hc]
  rfl

theorem noOcc_nil (pat : List Char) (hne : pat ≠ []) : NoOcc pat [] := by
  intro n hocc
  rw [List.drop_nil] at hocc
  cases pat with
  | nil => exact hne rfl
  | cons p ps => simp [List.isPrefixOf] at hocc

/-- After a global literal replacement whose pattern starts with a character
that recurs nowhere in the replacement, is `t`/`f`-free, and has the same
length as the (distinct, `chg`-related) replacement, the pattern no longer
occurs anywhere. -/
theorem replaceLitAux_estab (pat rep : List Char)
    (hpr : List.Forall₂ chg pat rep)
    (hlen : pat.length = rep.length)
    (hne : pat ≠ rep)
    (p₀ : Char) (hp₀ : pat.head? = some p₀)
    (hrep : ∀ d ∈ rep.tail, d ≠ p₀)
    (h1 : 't' ∉ pat) (h2 : 'f' ∉ pat) :
    ∀ (fuel : Nat) (t : List Char), t.length ≤ fuel →
      NoOcc pat (replaceLitAux pat rep fuel t) := by
  have hpne : pat ≠ [] := by
    intro h
    rw [h] at hp₀
    cases hp₀
  intro fuel
  induction fuel with
  | zero =>
    intro t ht
    have h0 : t = [] := List.length_eq_zero.mp (Nat.le_zero.mp ht)
    subst h0
    exact noOcc_nil pat hpne
  | succ fuel ih =>
    intro t ht
    cases t with
    | nil => exact noOcc_nil pat hpne
    | cons c t =>
      have htf : t.length ≤ fuel := by
        simp only [List.length_cons] at ht
        omega
      unfold replaceLitAux
      by_cases hp : List.isPrefixOf pat (c :: t) = true
      · rw [if_pos hp]
        have hp1 : 1 ≤ pat.length := by
          cases pat with
          | nil => exact absurd rfl hpne
          | cons _ _ => simp
        have hdlen : ((c :: t).drop pat.length).length ≤ fuel := by
          rw [List.length_drop]
          calc (c :: t).length - pat.length
              ≤ (c :: t).length - 1 := Nat.sub_le_sub_left hp1 _
            _ = t.length := by simp
            _ ≤ fuel := htf
        have hX := ih ((c :: t).drop pat.length) hdlen
        intro n hocc
        rcases Nat.lt_or_ge n rep.length with hn | hn
        · rw [List.drop_append_of_le_length (Nat.le_of_lt hn)] at hocc
          have hpre := List.isPrefixOf_iff_prefix.mp hocc
          have hhead := prefix_head_eq hpre p₀ hp₀
          rw [List.head?_append, List.head?_drop,
            List.getElem?_eq_getElem hn] at hhead
          have hrp : rep[n] = p₀ := by simpa using hhead
          cases n with
          | zero =>
            rw [List.drop_zero] at hpre
            have hpat := List.prefix_iff_eq_take.mp hpre
            rw [hlen, List.take_left] at hpat
            exact hne hpat
          | succ m =>
            have htail : (rep.drop 1)[m]? = some p₀ := by
              rw [List.getElem?_drop, Nat.add_comm,
                List.getElem?_eq_getElem hn, hrp]
            have hmem : p₀ ∈ rep.tail := by
              rw [← List.drop_one]
              exact List.getElem?_mem htail
            exact hrep p₀ hmem rfl
        · obtain ⟨m, rfl⟩ : ∃ m, n = rep.length + m :=
            ⟨n - rep.length, (Nat.add_sub_cancel' hn).symm⟩
          rw [List.drop_append] at hocc
          exact hX m hocc
      · rw [if_neg hp]
        intro n hocc
        cases n with
        | zero =>
          rw [List.drop_zero] at hocc
          have hf : List.Forall₂ chg (c :: t) (c :: replaceLitAux pat rep fuel t) :=
            List.Forall₂.cons (chg_refl c) (replaceLitAux_chg pat rep hpr fuel t)
          have hpre := List.isPrefixOf_iff_prefix.mp hocc
          exact hp (List.isPrefixOf_iff_prefix.mpr
            (chg_prefix_back _ _ hf pat h1 h2 hpre))
        | succ m =>
          rw [List.drop_succ_cons] at hocc
          exact ih t htf m hocc

theorem replaceLit_estab (pat rep t : List Char)
    (hpr : List.Forall₂ chg pat rep)
    (hlen : pat.length = rep.length)
    (hne : pat ≠ rep)
    (p₀ : Char) (hp₀ : pat.head? = some p₀)
    (hrep : ∀ d ∈ rep.tail, d ≠ p₀)
    (h1 : 't' ∉ pat) (h2 : 'f' ∉ pat) :
    NoOcc pat (replaceLit pat rep t) :=
  replaceLitAux_estab pat rep hpr hlen hne p₀ hp₀ hrep h1 h2 t.length t (Nat.le_refl _)

/-! Whole-string preservation wrappers for `BraceOK` and `WsNormal`. -/

theorem braceOK_collapseRuns (t : List Char) (h : BraceOK t) :
    BraceOK (collapseRuns jsIsSpace ' ' t) := by
  unfold collapseRuns
  rcases h with h | h | h
  · left
    intro hm
    rcases collapseRunsAux_mem_of jsIsSpace ' ' t false '{' hm with h1 | h1
    · exact absurd h1 (by decide)
    · exact h h1
  · right; left
    intro hm
    rcases collapseRunsAux_mem_of jsIsSpace ' ' t false '}' hm with h1 | h1
    · exact absurd h1 (by decide)
    · exact h h1
  · right; right
    refine ⟨?_, collapseRunsAux_getLast jsIsSpace ' ' t false '}' h.2 (by decide)⟩
    cases t with
    | nil => cases h.1
    | cons c t' =>
      have hc : c = '{' := by simpa using h.1
      subst hc
      exact collapseRunsAux_head_nonp jsIsSpace ' ' '{' t' (by decide) false

theorem braceOK_rmWsAfterMark (mark : Char) (t : List Char) (h : BraceOK t) :
    BraceOK (rmWsAfterMark mark t) := by
  unfold rmWsAfterMark
  rcases h with h | h | h
  · left
    exact fun hm => h ((rmWsAfterMarkAux_sublist mark t false none).subset hm)
  · right; left
    exact fun hm => h ((rmWsAfterMarkAux_sublist mark t false none).subset hm)
  · right; right
    refine ⟨?_, rmWsAfterMarkAux_getLast mark t false none '}' h.2 (by decide)⟩
    rw [rmWsAfterMarkAux_false_head]
    exact h.1

theorem braceOK_rmWsAfterOpen (mark : Char) (t : List Char) (h : BraceOK t) :
    BraceOK (rmWsAfterOpen mark t) := by
  unfold rmWsAfterOpen
  rcases h with h | h | h
  · left
    exact fun hm => h ((rmWsAfterOpenAux_sublist mark t false).subset hm)
  · right; left
    exact fun hm => h ((rmWsAfterOpenAux_sublist mark t false).subset hm)
  · right; right
    refine ⟨?_, rmWsAfterOpenAux_getLast mark t false '}' h.2 (by decide)⟩
    rw [rmWsAfterOpenAux_false_head]
    exact h.1

theorem braceOK_rmWsBeforeMark (mark : Char) (t : List Char) (h : BraceOK t) :
    BraceOK (rmWsBeforeMark mark t) := by
  unfold rmWsBeforeMark
  have hsub : List.Sublist (rmWsBeforeMarkAux mark [] t) t := by
    have := rmWsBeforeMarkAux_sublist mark t []
    simpa using this
  rcases h with h | h | h
  · left
    exact fun hm => h (hsub.subset hm)
  · right; left
    exact fun hm => h (hsub.subset hm)
  · right; right
    refine ⟨?_, rmWsBeforeMarkAux_getLast mark t [] '}' h.2 (by decide)⟩
    cases t with
    | nil => cases h.1
    | cons c t' =>
      have hc : c = '{' := by simpa using h.1
      subst hc
      exact rmWsBeforeMarkAux_head_nonws mark '{' t' (by decide)

theorem wsNormal_rmWsAfterMark (mark : Char) (hm : jsIsSpace mark = false)
    (t : List Char) (h : WsNormal t) : WsNormal (rmWsAfterMark mark t) := by
  unfold rmWsAfterMark
  constructor
  · intro c hc hw
    exact h.1 c ((rmWsAfterMarkAux_sublist mark t false none).subset hc) hw
  · exact rmWsAfterMarkAux_chain_pres mark hm _
      (fun a b ha _ hcon => absurd hcon.1 (by simp [ha])) t false none h.2

theorem wsNormal_rmWsAfterOpen (mark : Char) (hm : jsIsSpace mark = false)
    (t : List Char) (h : WsNormal t) : WsNormal (rmWsAfterOpen mark t) := by
  unfold rmWsAfterOpen
  constructor
  · intro c hc hw
    exact h.1 c ((rmWsAfterOpenAux_sublist mark t false).subset hc) hw
  · exact rmWsAfterOpenAux_chain_pres mark hm _
      (fun a b ha _ hcon => absurd hcon.1 (by simp [ha])) t false h.2

theorem wsNormal_rmWsBeforeMark (mark : Char) (hm : jsIsSpace mark = false)
    (t : List Char) (h : WsNormal t) : WsNormal (rmWsBeforeMark mark t) := by
  unfold rmWsBeforeMark
  constructor
  · intro c hc hw
    have hsub : List.Sublist (rmWsBeforeMarkAux mark [] t) t := by
      have := rmWsBeforeMarkAux_sublist mark t []
      simpa using this
    exact h.1 c (hsub.subset hc) hw
  · exact rmWsBeforeMarkAux_chain_pres mark hm _
      (fun a b ha _ hcon => absurd hcon.1 (by simp [ha])) t []
      (by simp) (by simpa using h.2)

theorem hQ_before (m : Char) : ∀ a b : Char, jsIsSpace a = false →
    jsIsSpace b = false → ¬(jsIsSpace a = true ∧ b = m) :=
  fun _ _ ha _ hcon => absurd hcon.1 (by simp [ha])

theorem hQ_open (m : Char) : ∀ a b : Char, jsIsSpace a = false →
    jsIsSpace b = false → ¬(a = m ∧ jsIsSpace b = true) :=
  fun _ _ _ hb hcon => absurd hcon.2 (by simp [hb])

theorem chgQ_before (m : Char) (hmt : m ≠ 't') (hmf : m ≠ 'f') :
    ∀ a b a' b' : Char, chg a a' → chg b b' →
      ¬(jsIsSpace a = true ∧ b = m) → ¬(jsIsSpace a' = true ∧ b' = m) := by
  intro a b a' b' ha hb hq hcon
  exact hq ⟨by rw [chg_ws a a' ha]; exact hcon.1,
    chg_back b b' m hb hcon.2 hmt hmf⟩

theorem chgQ_open (m : Char) (hmt : m ≠ 't') (hmf : m ≠ 'f') :
    ∀ a b a' b' : Char, chg a a' → chg b b' →
      ¬(a = m ∧ jsIsSpace b = true) → ¬(a' = m ∧ jsIsSpace b' = true) := by
  intro a b a' b' ha hb hq hcon
  exact hq ⟨chg_back a a' m ha hcon.1 hmt hmf,
    by rw [chg_ws b b' hb]; exact hcon.2⟩

set_option maxHeartbeats 2000000 in
/-- The output of `cleanJsonString` satisfies every step's normal form, so a
second pass leaves it unchanged. -/
theorem cleanJsonString_nf (s : String) :
    BraceOK (cleanJsonString s).data ∧
    WsNormal (cleanJsonString s).data ∧
    NoWsAfterMark ':' none (cleanJsonString s).data ∧
    List.Chain' (fun a b => ¬(jsIsSpace a = true ∧ b = ':')) (cleanJsonString s).data ∧
    NoWsAfterMark ',' none (cleanJsonString s).data ∧
    List.Chain' (fun a b => ¬(jsIsSpace a = true ∧ b = ',')) (cleanJsonString s).data ∧
    List.Chain' (fun a b => ¬(a = '{' ∧ jsIsSpace b = true)) (cleanJsonString s).data ∧
    List.Chain' (fun a b => ¬(jsIsSpace a = true ∧ b = '}')) (cleanJsonString s).data ∧
    List.Chain' (fun a b => ¬(a = '[' ∧ jsIsSpace b = true)) (cleanJsonString s).data ∧
    List.Chain' (fun a b => ¬(jsIsSpace a = true ∧ b = ']')) (cleanJsonString s).data ∧
    NoOcc (": True".data) (cleanJsonString s).data ∧
    NoOcc (": False".data) (cleanJsonString s).data := by
  have hdata : (cleanJsonString s).data =
      replaceLit (": False".data) (": false".data)
        (replaceLit (": True".data) (": true".data)
          (rmWsBeforeMark ']' (rmWsAfterOpen '['
            (rmWsBeforeMark '}' (rmWsAfterOpen '{'
              (rmWsBeforeMark ',' (rmWsAfterMark ','
                (rmWsBeforeMark ':' (rmWsAfterMark ':'
                  (collapseRuns jsIsSpace ' ' (trimToBraces s.data))))))))))) := rfl
  rw [hdata]
  set s1 := trimToBraces s.data with hs1
  set s2 := collapseRuns jsIsSpace ' ' s1 with hs2
  set s3 := rmWsAfterMark ':' s2 with hs3
  set s4 := rmWsBeforeMark ':' s3 with hs4
  set s5 := rmWsAfterMark ',' s4 with hs5
  set s6 := rmWsBeforeMark ',' s5 with hs6
  set s7 := rmWsAfterOpen '{' s6 with hs7
  set s8 := rmWsBeforeMark '}' s7 with hs8
  set s9 := rmWsAfterOpen '[' s8 with hs9
  set s10 := rmWsBeforeMark ']' s9 with hs10
  set s11 := replaceLit (": True".data) (": true".data) s10 with hs11
  set s12 := replaceLit (": False".data) (": false".data) s11 with hs12
  have hpr1 : List.Forall₂ chg (": True".data) (": true".data) := by
    refine List.Forall₂.cons (chg_refl ':') ?_
    refine List.Forall₂.cons (chg_refl ' ') ?_
    refine List.Forall₂.cons (Or.inr (Or.inl ⟨rfl, rfl⟩)) ?_
    refine List.Forall₂.cons (chg_refl 'r') ?_
    refine List.Forall₂.cons (chg_refl 'u') ?_
    exact List.Forall₂.cons (chg_refl 'e') List.Forall₂.nil
  have hpr2 : List.Forall₂ chg (": False".data) (": false".data) := by
    refine List.Forall₂.cons (chg_refl ':') ?_
    refine List.Forall₂.cons (chg_refl ' ') ?_
    refine List.Forall₂.cons (Or.inr (Or.inr ⟨rfl, rfl⟩)) ?_
    refine List.Forall₂.cons (chg_refl 'a') ?_
    refine List.Forall₂.cons (chg_refl 'l') ?_
    refine List.Forall₂.cons (chg_refl 's') ?_
    exact List.Forall₂.cons (chg_refl 'e') List.Forall₂.nil
  have hch1 : List.Forall₂ chg s10 s11 := replaceLit_chg _ _ s10 hpr1
  have hch2 : List.Forall₂ chg s11 s12 := replaceLit_chg _ _ s11 hpr2
  -- BraceOK
  have hb1 : BraceOK s1 := trimToBraces_braceOK s.data
  have hb2 : BraceOK s2 := braceOK_collapseRuns s1 hb1
  have hb3 : BraceOK s3 := braceOK_rmWsAfterMark ':' s2 hb2
  have hb4 : BraceOK s4 := braceOK_rmWsBeforeMark ':' s3 hb3
  have hb5 : BraceOK s5 := braceOK_rmWsAfterMark ',' s4 hb4
  have hb6 : BraceOK s6 := braceOK_rmWsBeforeMark ',' s5 hb5
  have hb7 : BraceOK s7 := braceOK_rmWsAfterOpen '{' s6 hb6
  have hb8 : BraceOK s8 := braceOK_rmWsBeforeMark '}' s7 hb7
  have hb9 : BraceOK s9 := braceOK_rmWsAfterOpen '[' s8 hb8
  have hb10 : BraceOK s10 := braceOK_rmWsBeforeMark ']' s9 hb9
  have hb11 : BraceOK s11 := braceOK_of_chg s10 s11 hch1 hb10
  have hb12 : BraceOK s12 := braceOK_of_chg s11 s12 hch2 hb11
  -- WsNormal
  have hw2 : WsNormal s2 := collapseRuns_wsNormal s1
  have hw3 : WsNormal s3 := wsNormal_rmWsAfterMark ':' (by decide) s2 hw2
  have hw4 : WsNormal s4 := wsNormal_rmWsBeforeMark ':' (by decide) s3 hw3
  have hw5 : WsNormal s5 := wsNormal_rmWsAfterMark ',' (by decide) s4 hw4
  have hw6 : WsNormal s6 := wsNormal_rmWsBeforeMark ',' (by decide) s5 hw5
  have hw7 : WsNormal s7 := wsNormal_rmWsAfterOpen '{' (by decide) s6 hw6
  have hw8 : WsNormal s8 := wsNormal_rmWsBeforeMark '}' (by decide) s7 hw7
  have hw9 : WsNormal s9 := wsNormal_rmWsAfterOpen '[' (by decide) s8 hw8
  have hw10 : WsNormal s10 := wsNormal_rmWsBeforeMark ']' (by decide) s9 hw9
  have hw11 : WsNormal s11 := wsNormal_of_chg s10 s11 hch1 hw10
  have hw12 : WsNormal s12 := wsNormal_of_chg s11 s12 hch2 hw11
  -- NoWsAfterMark ':'
  have hnc3 : NoWsAfterMark ':' none s3 :=
    rmWsAfterMark_estab ':' (by decide) (by decide) s2
  have hnc4 : NoWsAfterMark ':' none s4 :=
    rmWsBeforeMarkAux_nwam_pres ':' ':' (by decide) (by decide) s3 [] none none
      (by simp) (fun h => Option.noConfusion h) hnc3
  have hnc5 : NoWsAfterMark ':' none s5 :=
    rmWsAfterMarkAux_nwam_pres ':' ',' (by decide) s4 false none none
      (fun h => h) hnc4
  have hnc6 : NoWsAfterMark ':' none s6 :=
    rmWsBeforeMarkAux_nwam_pres ':' ',' (by decide) (by decide) s5 [] none none
      (by simp) (fun h => Option.noConfusion h) hnc5
  have hnc7 : NoWsAfterMark ':' none s7 :=
    rmWsAfterOpenAux_nwam_pres ':' '{' (by decide) s6 false none none
      (fun h => h) hnc6
  have hnc8 : NoWsAfterMark ':' none s8 :=
    rmWsBeforeMarkAux_nwam_pres ':' '}' (by decide) (by decide) s7 [] none none
      (by simp) (fun h => Option.noConfusion h) hnc7
  have hnc9 : NoWsAfterMark ':' none s9 :=
    rmWsAfterOpenAux_nwam_pres ':' '[' (by decide) s8 false none none
      (fun h => h) hnc8
  have hnc10 : NoWsAfterMark ':' none s10 :=
    rmWsBeforeMarkAux_nwam_pres ':' ']' (by decide) (by decide) s9 [] none none
      (by simp) (fun h => Option.noConfusion h) hnc9
  have hnc11 : NoWsAfterMark ':' none s11 :=
    nwam_of_chg ':' (by decide) (by decide) s10 s11 hch1 none none Iff.rfl hnc10
  have hnc12 : NoWsAfterMark ':' none s12 :=
    nwam_of_chg ':' (by decide) (by decide) s11 s12 hch2 none none Iff.rfl hnc11
  -- NoWsAfterMark ','
  have hnm5 : NoWsAfterMark ',' none s5 :=
    rmWsAfterMark_estab ',' (by decide) (by decide) s4
  have hnm6 : NoWsAfterMark ',' none s6 :=
    rmWsBeforeMarkAux_nwam_pres ',' ',' (by decide) (by decide) s5 [] none none
      (by simp) (fun h => Option.noConfusion h) hnm5
  have hnm7 : NoWsAfterMark ',' none s7 :=
    rmWsAfterOpenAux_nwam_pres ',' '{' (by decide) s6 false none none
      (fun h => h) hnm6
  have hnm8 : NoWsAfterMark ',' none s8 :=
    rmWsBeforeMarkAux_nwam_pres ',' '}' (by decide) (by decide) s7 [] none none
      (by simp) (fun h => Option.noConfusion h) hnm7
  have hnm9 : NoWsAfterMark ',' none s9 :=
    rmWsAfterOpenAux_nwam_pres ',' '[' (by decide) s8 false none none
      (fun h => h) hnm8
  have hnm10 : NoWsAfterMark ',' none s10 :=
    rmWsBeforeMarkAux_nwam_pres ',' ']' (by decide) (by decide) s9 [] none none
      (by simp) (fun h => Option.noConfusion h) hnm9
  have hnm11 : NoWsAfterMark ',' none s11 :=
    nwam_of_chg ',' (by decide) (by decide) s10 s11 hch1 none none Iff.rfl hnm10
  have hnm12 : NoWsAfterMark ',' none s12 :=
    nwam_of_chg ',' (by decide) (by decide) s11 s12 hch2 none none Iff.rfl hnm11
  -- no whitespace before ':'
  have hA4 : List.Chain' (fun a b => ¬(jsIsSpace a = true ∧ b = ':')) s4 :=
    rmWsBeforeMarkAux_estab ':' (by decide) s3 [] (by simp)
  have hA5 : List.Chain' (fun a b => ¬(jsIsSpace a = true ∧ b = ':')) s5 :=
    rmWsAfterMarkAux_chain_pres ',' (by decide) _ (hQ_before ':') s4 false none hA4
  have hA6 : List.Chain' (fun a b => ¬(jsIsSpace a = true ∧ b = ':')) s6 :=
    rmWsBeforeMarkAux_chain_pres ',' (by decide) _ (hQ_before ':') s5 []
      (by simp) (by simpa using hA5)
  have hA7 : List.Chain' (fun a b => ¬(jsIsSpace a = true ∧ b = ':')) s7 :=
    rmWsAfterOpenAux_chain_pres '{' (by decide) _ (hQ_before ':') s6 false hA6
  have hA8 : List.Chain' (fun a b => ¬(jsIsSpace a = true ∧ b = ':')) s8 :=
    rmWsBeforeMarkAux_chain_pres '}' (by decide) _ (hQ_before ':') s7 []
      (by simp) (by simpa using hA7)
  have hA9 : List.Chain' (fun a b => ¬(jsIsSpace a = true ∧ b = ':')) s9 :=
    rmWsAfterOpenAux_chain_pres '[' (by decide) _ (hQ_before ':') s8 false hA8
  have hA10 : List.Chain' (fun a b => ¬(jsIsSpace a = true ∧ b = ':')) s10 :=
    rmWsBeforeMarkAux_chain_pres ']' (by decide) _ (hQ_before ':') s9 []
      (by simp) (by simpa using hA9)
  have hA11 : List.Chain' (fun a b => ¬(jsIsSpace a = true ∧ b = ':')) s11 :=
    chain'_of_chg _ (chgQ_before ':' (by decide) (by decide)) s10 s11 hch1 hA10
  have hA12 : List.Chain' (fun a b => ¬(jsIsSpace a = true ∧ b = ':')) s12 :=
    chain'_of_chg _ (chgQ_before ':' (by decide) (by decide)) s11 s12 hch2 hA11
  -- no whitespace before ','
  have hB6 : List.Chain' (fun a b => ¬(jsIsSpace a = true ∧ b = ',')) s6 :=
    rmWsBeforeMarkAux_estab ',' (by decide) s5 [] (by simp)
  have hB7 : List.Chain' (fun a b => ¬(jsIsSpace a = true ∧ b = ',')) s7 :=
    rmWsAfterOpenAux_chain_pres '{' (by decide) _ (hQ_before ',') s6 false hB6
  have hB8 : List.Chain' (fun a b => ¬(jsIsSpace a = true ∧ b = ',')) s8 :=
    rmWsBeforeMarkAux_chain_pres '}' (by decide) _ (hQ_before ',') s7 []
      (by simp) (by simpa using hB7)
  have hB9 : List.Chain' (fun a b => ¬(jsIsSpace a = true ∧ b = ',')) s9 :=
    rmWsAfterOpenAux_chain_pres '[' (by decide) _ (hQ_before ',') s8 false hB8
  have hB10 : List.Chain' (fun a b => ¬(jsIsSpace a = true ∧ b = ',')) s10 :=
    rmWsBeforeMarkAux_chain_pres ']' (by decide) _ (hQ_before ',') s9 []
      (by simp) (by simpa using hB9)
  have hB11 : List.Chain' (fun a b => ¬(jsIsSpace a = true ∧ b = ',')) s11 :=
    chain'_of_chg _ (chgQ_before ',' (by decide) (by decide)) s10 s11 hch1 hB10
  have hB12 : List.Chain' (fun a b => ¬(jsIsSpace a = true ∧ b = ',')) s12 :=
    chain'_of_chg _ (chgQ_before ',' (by decide) (by decide)) s11 s12 hch2 hB11
  -- no whitespace after '{'
  have hC7 : List.Chain' (fun a b => ¬(a = '{' ∧ jsIsSpace b = true)) s7 :=
    rmWsAfterOpenAux_estab '{' (by decide) s6 false
  have hC8 : List.Chain' (fun a b => ¬(a = '{' ∧ jsIsSpace b = true)) s8 :=
    rmWsBeforeMarkAux_chain_pres '}' (by decide) _ (hQ_open '{') s7 []
      (by simp) (by simpa using hC7)
  have hC9 : List.Chain' (fun a b => ¬(a = '{' ∧ jsIsSpace b = true)) s9 :=
    rmWsAfterOpenAux_chain_pres '[' (by decide) _ (hQ_open '{') s8 false hC8
  have hC10 : List.Chain' (fun a b => ¬(a = '{' ∧ jsIsSpace b = true)) s10 :=
    rmWsBeforeMarkAux_chain_pres ']' (by decide) _ (hQ_open '{') s9 []
      (by simp) (by simpa using hC9)
  have hC11 : List.Chain' (fun a b => ¬(a = '{' ∧ jsIsSpace b = true)) s11 :=
    chain'_of_chg _ (chgQ_open '{' (by decide) (by decide)) s10 s11 hch1 hC10
  have hC12 : List.Chain' (fun a b => ¬(a = '{' ∧ jsIsSpace b = true)) s12 :=
    chain'_of_chg _ (chgQ_open '{' (by decide) (by decide)) s11 s12 hch2 hC11
  -- no whitespace before '}'
  have hD8 : List.Chain' (fun a b => ¬(jsIsSpace a = true ∧ b = '}')) s8 :=
    rmWsBeforeMarkAux_estab '}' (by decide) s7 [] (by simp)
  have hD9 : List.Chain' (fun a b => ¬(jsIsSpace a = true ∧ b = '}')) s9 :=
    rmWsAfterOpenAux_chain_pres '[' (by decide) _ (hQ_before '}') s8 false hD8
  have hD10 : List.Chain' (fun a b => ¬(jsIsSpace a = true ∧ b = '}')) s10 :=
    rmWsBeforeMarkAux_chain_pres ']' (by decide) _ (hQ_before '}') s9 []
      (by simp) (by simpa using hD9)
  have hD11 : List.Chain' (fun a b => ¬(jsIsSpace a = true ∧ b = '}')) s11 :=
    chain'_of_chg _ (chgQ_before '}' (by decide) (by decide)) s10 s11 hch1 hD10
  have hD12 : List.Chain' (fun a b => ¬(jsIsSpace a = true ∧ b = '}')) s12 :=
    chain'_of_chg _ (chgQ_before '}' (by decide) (by decide)) s11 s12 hch2 hD11
  -- no whitespace after '['
  have hE9 : List.Chain' (fun a b => ¬(a = '[' ∧ jsIsSpace b = true)) s9 :=
    rmWsAfterOpenAux_estab '[' (by decide) s8 false
  have hE10 : List.Chain' (fun a b => ¬(a = '[' ∧ jsIsSpace b = true)) s10 :=
    rmWsBeforeMarkAux_chain_pres ']' (by decide) _ (hQ_open '[') s9 []
      (by simp) (by simpa using hE9)
  have hE11 : List.Chain' (fun a b => ¬(a = '[' ∧ jsIsSpace b = true)) s11 :=
    chain'_of_chg _ (chgQ_open '[' (by decide) (by decide)) s10 s11 hch1 hE10
  have hE12 : List.Chain' (fun a b => ¬(a = '[' ∧ jsIsSpace b = true)) s12 :=
    chain'_of_chg _ (chgQ_open '[' (by decide) (by decide)) s11 s12 hch2 hE11
  -- no whitespace before ']'
  have hF10 : List.Chain' (fun a b => ¬(jsIsSpace a = true ∧ b = ']')) s10 :=
    rmWsBeforeMarkAux_estab ']' (by decide) s9 [] (by simp)
  have hF11 : List.Chain' (fun a b => ¬(jsIsSpace a = true ∧ b = ']')) s11 :=
    chain'_of_chg _ (chgQ_before ']' (by decide) (by decide)) s10 s11 hch1 hF10
  have hF12 : List.Chain' (fun a b => ¬(jsIsSpace a = true ∧ b = ']')) s12 :=
    chain'_of_chg _ (chgQ_before ']' (by decide) (by decide)) s11 s12 hch2 hF11
  -- NoOcc of the two boolean-literal patterns
  have hT11 : NoOcc (": True".data) s11 :=
    replaceLit_estab (": True".data) (": true".data) s10 hpr1 (by decide)
      (by decide) ':' (by decide) (by decide) (by decide) (by decide)
  have hT12 : NoOcc (": True".data) s12 :=
    noOcc_of_chg (": True".data) s11 s12 (by decide) (by decide) hch2 hT11
  have hF12' : NoOcc (": False".data) s12 :=
    replaceLit_estab (": False".data) (": false".data) s11 hpr2 (by decide)
      (by decide) ':' (by decide) (by decide) (by decide) (by decide)
  exact ⟨hb12, hw12, hnc12, hA12, hnm12, hB12, hC12, hD12, hE12, hF12, hT12, hF12'⟩

/-- On a string in all twelve normal forms, `cleanJsonString` is the
identity. -/
theorem cleanJsonString_id_of_nf (u : String)
    (hb : BraceOK u.data) (hw : WsNormal u.data)
    (hnc : NoWsAfterMark ':' none u.data)
    (hA : List.Chain' (fun a b => ¬(jsIsSpace a = true ∧ b = ':')) u.data)
    (hnm : NoWsAfterMark ',' none u.data)
    (hB : List.Chain' (fun a b => ¬(jsIsSpace a = true ∧ b = ',')) u.data)
    (hC : List.Chain' (fun a b => ¬(a = '{' ∧ jsIsSpace b = true)) u.data)
    (hD : List.Chain' (fun a b => ¬(jsIsSpace a = true ∧ b = '}')) u.data)
    (hE : List.Chain' (fun a b => ¬(a = '[' ∧ jsIsSpace b = true)) u.data)
    (hF : List.Chain' (fun a b => ¬(jsIsSpace a = true ∧ b = ']')) u.data)
    (hT : NoOcc (": True".data) u.data)
    (hFo : NoOcc (": False".data) u.data) :
    cleanJsonString u = u := by
  have hdef : cleanJsonString u =
      ⟨replaceLit (": False".data) (": false".data)
        (replaceLit (": True".data) (": true".data)
          (rmWsBeforeMark ']' (rmWsAfterOpen '['
            (rmWsBeforeMark '}' (rmWsAfterOpen '{'
              (rmWsBeforeMark ',' (rmWsAfterMark ','
                (rmWsBeforeMark ':' (rmWsAfterMark ':'
                  (collapseRuns jsIsSpace ' ' (trimToBraces u.data)))))))))))⟩ := rfl
  rw [hdef, trimToBraces_id u.data hb, collapseRuns_id u.data hw,
    rmWsAfterMark_id ':' u.data hnc, rmWsBeforeMark_id ':' u.data hA,
    rmWsAfterMark_id ',' u.data hnm, rmWsBeforeMark_id ',' u.data hB,
    rmWsAfterOpen_id '{' u.data hC, rmWsBeforeMark_id '}' u.data hD,
    rmWsAfterOpen_id '[' u.data hE, rmWsBeforeMark_id ']' u.data hF,
    replaceLit_id _ _ u.data hT, replaceLit_id _ _ u.data hFo]

/-- C5: `cleanJsonString` is idempotent: a second application returns its
input unchanged; and it rewrites the Python-style capitalized boolean
literals `: True` and `: False` to `: true` and `: false`, as on the sample
object with one value of each. -/
theorem C5_cleanJsonString_idempotent :
    (∀ s : String, cleanJsonString (cleanJsonString s) = cleanJsonString s) ∧
    cleanJsonString "\x7b\"a\": True, \"b\": False\x7d" =
      "\x7b\"a\": true,\"b\": false\x7d" := by
  constructor
  · intro s
    obtain ⟨hb, hw, hnc, hA, hnm, hB, hC, hD, hE, hF, hT, hFo⟩ :=
      cleanJsonString_nf s
    exact cleanJsonString_id_of_nf (cleanJsonString s)
      hb hw hnc hA hnm hB hC hD hE hF hT hFo
  · rfl

end Analyzer
